import Mathlib

/-!
Verification of the course-scheduling engine of this repository.

The definitions below are a shallow embedding of the Python sources:
  * `src/scheduler/create_schedule.py` — the requirement tree (`Req`), the
    requirement simplifier (`simplify_requirement`), course-code extraction,
    the fixed-point required-course-set expansion, the offering-pattern table
    (`pattern_allows`) and the pattern-aware scheduler (`schedule_courses`).
  * `src/create_schedule.py` — the three-color depth-first `topological_sort`
    with cycle detection, `check_prerequisites_satisfied`,
    `generate_semesters`, and the phase-3/phase-4 control flow of `main`.

Conventions of the embedding:
  * Python floats that hold credit values / GPAs are modelled as rationals.
  * Python dicts keyed by course code are modelled as functions; Python sets
    of codes as `Finset String`.  Course codes are taken as already
    case-normalized strings.
  * Python lists of child requirement nodes are modelled by the spine type
    `ReqList`, isomorphic to `List Req` through `ReqList.toList` /
    `ReqList.ofList`.  (The mutual pair keeps every recursion over the tree
    structural, hence executable and evaluable by `decide`.)
  * Python `while` loops that are not obviously bounded take an explicit
    fuel argument and return `Option`; `none` means the fuel was exhausted,
    i.e. the source loop has not terminated within that many iterations.
  * Python exceptions (`KeyError`, `RuntimeError`) are modelled as `Except`
    error results.
-/

/-- Offering patterns, `class OfferingPattern` of
`src/scheduler/create_schedule.py`. -/
inductive OfferingPattern where
  | summer
  | fall_and_spring
  | fall
  | spring
  | fall_even
  | fall_odd
  | spring_even
  | spring_odd
  | summer_even
  | summer_odd
  | irregular
  | arranged
  | deactivated
  | unknown
deriving DecidableEq, Repr

/-- `timing` field of a `COURSE` requirement. -/
inductive Timing where
  | completed
  | concurrent
  | concurrentOrCompleted
deriving DecidableEq, Repr

/-- Academic-standing levels, `class Level`. -/
inductive LevelName where
  | freshman
  | sophomore
  | junior
  | senior
deriving DecidableEq, Repr

/-- `Level._level_order`. -/
def levelRank : LevelName → Nat
  | .freshman => 0
  | .sophomore => 1
  | .junior => 2
  | .senior => 3

/-- `class Placement` (subject-scoped placement tier). -/
structure Placement where
  subject : String
  level : String
deriving DecidableEq, Repr

/-- `Placement._rank`: numeric levels rank as their value, non-numeric rank 0.
(`String.toNat?` succeeds exactly on nonempty all-digit strings, matching
Python's `str.isdigit` guard.) -/
def placementRank (level : String) : Nat :=
  (level.toNat?).getD 0

mutual

/-- The requirement tree: the tagged variants of `Requirement`
(`Or`, `And`, `Course`, `GPA`, `Placement`, `Permission`, `Level`, `Other`,
`Empty`, `CreditsFrom`, `ChooseN`). -/
inductive Req where
  | empty : Req
  | permission (authority : String) : Req
  | level (level : LevelName) : Req
  | placement (subject : String) (level : String) : Req
  | gpa (gpa : ℚ) : Req
  | course (course : String) (timing : Timing) : Req
  | orReq (requirements : ReqList) : Req
  | andReq (requirements : ReqList) : Req
  | creditsFrom (credits_required : ℚ) (requirements : ReqList) : Req
  | chooseN (choose : Nat) (requirements : ReqList) : Req
  | other (other : String) : Req

/-- Spine of a list of child requirement nodes. -/
inductive ReqList where
  | nil : ReqList
  | cons (head : Req) (tail : ReqList) : ReqList

end

/-- View a `ReqList` as a `List Req`. -/
def ReqList.toList : ReqList → List Req
  | .nil => []
  | .cons r rs => r :: rs.toList

/-- Build a `ReqList` from a `List Req`. -/
def ReqList.ofList : List Req → ReqList
  | [] => .nil
  | r :: rs => .cons r (ReqList.ofList rs)

/-- Spine induction for `ReqList` (head nodes left untouched). -/
def ReqList.recList {P : ReqList → Prop} (hnil : P .nil)
    (hcons : ∀ r rs, P rs → P (.cons r rs)) : ∀ rs, P rs
  | .nil => hnil
  | .cons r rs => hcons r rs (ReqList.recList hnil hcons rs)

@[simp]
theorem ReqList.toList_ofList (l : List Req) : (ReqList.ofList l).toList = l := by
  induction l with
  | nil => rfl
  | cons r rs ih => simp [ReqList.ofList, ReqList.toList, ih]

@[simp]
theorem ReqList.ofList_toList (rs : ReqList) : ReqList.ofList rs.toList = rs := by
  induction rs using ReqList.recList with
  | hnil => rfl
  | hcons r rs ih => simp [ReqList.ofList, ReqList.toList, ih]

theorem ReqList.toList_injective : Function.Injective ReqList.toList := by
  intro a b h
  rw [← ReqList.ofList_toList a, ← ReqList.ofList_toList b, h]

mutual

/-- Structural equality test on requirement trees. -/
def Req.beq : Req → Req → Bool
  | .empty, .empty => true
  | .permission a, .permission b => a == b
  | .level a, .level b => a == b
  | .placement s1 l1, .placement s2 l2 => s1 == s2 && l1 == l2
  | .gpa a, .gpa b => a == b
  | .course c1 t1, .course c2 t2 => c1 == c2 && t1 == t2
  | .orReq rs, .orReq ss => Req.beqList rs ss
  | .andReq rs, .andReq ss => Req.beqList rs ss
  | .creditsFrom c1 rs, .creditsFrom c2 ss => c1 == c2 && Req.beqList rs ss
  | .chooseN n1 rs, .chooseN n2 ss => n1 == n2 && Req.beqList rs ss
  | .other a, .other b => a == b
  | _, _ => false
termination_by structural r => r

/-- Pointwise `Req.beq` on child lists. -/
def Req.beqList : ReqList → ReqList → Bool
  | .nil, .nil => true
  | .cons a as, .cons b bs => Req.beq a b && Req.beqList as bs
  | _, _ => false
termination_by structural rs => rs

end

mutual

/-- Induction principle for `Req` exposing the children of the composite
nodes through list membership. -/
def Req.recMem {P : Req → Prop}
    (hempty : P .empty)
    (hperm : ∀ s, P (.permission s))
    (hlevel : ∀ l, P (.level l))
    (hplac : ∀ s l, P (.placement s l))
    (hgpa : ∀ g, P (.gpa g))
    (hcourse : ∀ c t, P (.course c t))
    (hor : ∀ rs, (∀ r ∈ ReqList.toList rs, P r) → P (.orReq rs))
    (hand : ∀ rs, (∀ r ∈ ReqList.toList rs, P r) → P (.andReq rs))
    (hcf : ∀ c rs, (∀ r ∈ ReqList.toList rs, P r) → P (.creditsFrom c rs))
    (hcn : ∀ n rs, (∀ r ∈ ReqList.toList rs, P r) → P (.chooseN n rs))
    (hother : ∀ s, P (.other s)) : ∀ r, P r
  | .empty => hempty
  | .permission s => hperm s
  | .level l => hlevel l
  | .placement s l => hplac s l
  | .gpa g => hgpa g
  | .course c t => hcourse c t
  | .orReq rs => hor rs
      (Req.recMemList hempty hperm hlevel hplac hgpa hcourse hor hand hcf hcn hother rs)
  | .andReq rs => hand rs
      (Req.recMemList hempty hperm hlevel hplac hgpa hcourse hor hand hcf hcn hother rs)
  | .creditsFrom c rs => hcf c rs
      (Req.recMemList hempty hperm hlevel hplac hgpa hcourse hor hand hcf hcn hother rs)
  | .chooseN n rs => hcn n rs
      (Req.recMemList hempty hperm hlevel hplac hgpa hcourse hor hand hcf hcn hother rs)
  | .other s => hother s
termination_by structural r => r

/-- Companion of `Req.recMem` for child lists. -/
def Req.recMemList {P : Req → Prop}
    (hempty : P .empty)
    (hperm : ∀ s, P (.permission s))
    (hlevel : ∀ l, P (.level l))
    (hplac : ∀ s l, P (.placement s l))
    (hgpa : ∀ g, P (.gpa g))
    (hcourse : ∀ c t, P (.course c t))
    (hor : ∀ rs, (∀ r ∈ ReqList.toList rs, P r) → P (.orReq rs))
    (hand : ∀ rs, (∀ r ∈ ReqList.toList rs, P r) → P (.andReq rs))
    (hcf : ∀ c rs, (∀ r ∈ ReqList.toList rs, P r) → P (.creditsFrom c rs))
    (hcn : ∀ n rs, (∀ r ∈ ReqList.toList rs, P r) → P (.chooseN n rs))
    (hother : ∀ s, P (.other s)) :
    ∀ rs : ReqList, ∀ r ∈ ReqList.toList rs, P r
  | .nil => fun _ hr => absurd hr (by simp [ReqList.toList])
  | .cons a as => fun r hr =>
      (List.mem_cons.mp hr).elim
        (fun h => h ▸
          Req.recMem hempty hperm hlevel hplac hgpa hcourse hor hand hcf hcn hother a)
        (fun h =>
          Req.recMemList hempty hperm hlevel hplac hgpa hcourse hor hand hcf hcn hother
            as r h)
termination_by structural rs => rs

end

theorem Req.beqList_iff_aux (rs : ReqList)
    (ih : ∀ r ∈ ReqList.toList rs, ∀ b : Req, Req.beq r b = true ↔ r = b) :
    ∀ ss : ReqList, Req.beqList rs ss = true ↔ rs = ss := by
  induction rs using ReqList.recList with
  | hnil => intro ss; cases ss <;> simp [Req.beqList]
  | hcons r rs ihr =>
    intro ss
    cases ss with
    | nil => simp [Req.beqList]
    | cons s ss =>
      simp only [Req.beqList, Bool.and_eq_true]
      rw [ih r (by simp [ReqList.toList]) s,
        ihr (fun x hx => ih x (by simp [ReqList.toList, hx])) ss]
      simp

theorem Req.beq_iff : ∀ a b : Req, Req.beq a b = true ↔ a = b := by
  intro a
  induction a using Req.recMem with
  | hor rs ih =>
    intro b; cases b <;> simp [Req.beq, Req.beqList_iff_aux rs ih]
  | hand rs ih =>
    intro b; cases b <;> simp [Req.beq, Req.beqList_iff_aux rs ih]
  | hcf c rs ih =>
    intro b; cases b <;> simp [Req.beq, Req.beqList_iff_aux rs ih]
  | hcn n rs ih =>
    intro b; cases b <;> simp [Req.beq, Req.beqList_iff_aux rs ih]
  | _ =>
    intro b
    cases b <;> simp [Req.beq]

instance : DecidableEq Req := fun a b => decidable_of_iff _ (Req.beq_iff a b)

instance : DecidableEq ReqList := fun a b =>
  decidable_of_iff (ReqList.toList a = ReqList.toList b)
    ⟨fun h => ReqList.toList_injective h, fun h => h ▸ rfl⟩

/-- `simp.type == RequirementType.NONE` test. -/
def Req.isNone : Req → Bool
  | .empty => true
  | _ => false

/-- `class ParsedCourse` (catalog entry).  The purely descriptive string
fields that no algorithm consults (`requisite_string`, `component`) are kept
for fidelity. -/
structure ParsedCourse where
  name : String
  code : String
  requisite_string : Option String
  requisite : List Req
  component : String
  bricks : List String
  min_credits : ℚ
  max_credits : ℚ
  pattern : OfferingPattern
deriving DecidableEq

/-- `class Config` (student state and run parameters).  The `program`
metadata is not consulted by the functions verified here and is left out;
the requirement list of the program enters the algorithms as an explicit
argument instead. -/
structure Config where
  completed_course_work : List String
  placements : List Placement
  gpa : ℚ
  level : LevelName
  credits_per_semester : Nat
  start_year : Nat
  start_term : String
deriving DecidableEq, Repr

/-- `get_course`: linear scan of the catalog list, first course whose code
matches. -/
def get_course (catalog : List ParsedCourse) (code : String) : Option ParsedCourse :=
  catalog.find? (fun course => course.code == code)

/-- `pattern_allows(pattern, is_spring, year)` of
`src/scheduler/create_schedule.py` (the `if not pattern` guard of the source
is dead code for enum members, whose string values are all nonempty). -/
def pattern_allows (pattern : OfferingPattern) (is_spring : Bool) (year : Nat) : Bool :=
  match pattern with
  | .summer => false
  | .fall_and_spring => true
  | .fall => !is_spring
  | .spring => is_spring
  | .fall_even => !is_spring && year % 2 == 0
  | .fall_odd => !is_spring && year % 2 == 1
  | .spring_even => is_spring && year % 2 == 0
  | .spring_odd => is_spring && year % 2 == 1
  | .summer_even => false
  | .summer_odd => false
  | .irregular => true
  | .arranged => true
  | .deactivated => false
  | .unknown => true

mutual

/-- `extract_course_codes(req)`: all course codes on `Course` leaves anywhere
in the tree (`src/scheduler/create_schedule.py`). -/
def extract_course_codes : Req → Finset String
  | .course code _ => {code}
  | .orReq rs => extract_course_codes_children rs
  | .andReq rs => extract_course_codes_children rs
  | .creditsFrom _ rs => extract_course_codes_children rs
  | .chooseN _ rs => extract_course_codes_children rs
  | _ => ∅
termination_by structural r => r

/-- Union of `extract_course_codes` over a child list. -/
def extract_course_codes_children : ReqList → Finset String
  | .nil => ∅
  | .cons r rs => extract_course_codes r ∪ extract_course_codes_children rs
termination_by structural rs => rs

end

/-- `extract_course_codes` over a Python list of requirement nodes (the
source applies it to `And(requirements=...)`; the union over the list is the
same set). -/
def extract_course_codes_list (rs : List Req) : Finset String :=
  rs.foldr (fun r acc => extract_course_codes r ∪ acc) ∅

mutual

/-- `collect_all_course_codes(req)` of the scheduler — the variant used to
build the dependency graph from raw prerequisite trees.  On trees it visits
exactly the same leaves as `extract_course_codes`. -/
def collect_all_course_codes : Req → Finset String
  | .course code _ => {code}
  | .orReq rs => collect_all_course_codes_children rs
  | .andReq rs => collect_all_course_codes_children rs
  | .creditsFrom _ rs => collect_all_course_codes_children rs
  | .chooseN _ rs => collect_all_course_codes_children rs
  | _ => ∅
termination_by structural r => r

/-- Union of `collect_all_course_codes` over a child list. -/
def collect_all_course_codes_children : ReqList → Finset String
  | .nil => ∅
  | .cons r rs => collect_all_course_codes r ∪ collect_all_course_codes_children rs
termination_by structural rs => rs

end

/-- `collect_all_course_codes` applied to a Python list of nodes (the source
function also accepts a list and unions the results). -/
def collect_all_course_codes_list (rs : List Req) : Finset String :=
  rs.foldr (fun r acc => collect_all_course_codes r ∪ acc) ∅

/-- The credit total of the `CREDITS_FROM` branch of `simplify_requirement`:
sum of `min_credits` over the completed courses among `codes`, counting 0
for codes missing from the catalog. -/
def credit_sum (catalog : List ParsedCourse) (completed_courses : List String)
    (codes : Finset String) : ℚ :=
  ∑ code ∈ codes,
    if completed_courses.contains code then
      match get_course catalog code with
      | some course_info => course_info.min_credits
      | none => 0
    else 0

/-- The completed-course count of the `CHOOSE_N` branch of
`simplify_requirement`: distinct completed codes in the subtree. -/
def completed_count (completed_courses : List String) (codes : Finset String) : Nat :=
  (codes.filter (fun code => completed_courses.contains code)).card

mutual

/-- `simplify_requirement(req, current_gpa, placements, completed_courses,
level)` — the requirement simplifier.  The catalog argument is the source's
global `courses` list. -/
def simplify_requirement (catalog : List ParsedCourse) (current_gpa : ℚ)
    (placements : List Placement) (completed_courses : List String)
    (level : LevelName) : Req → Req
  | .empty => .empty
  | .course code timing =>
      if completed_courses.contains code then .empty
      else
        match get_course catalog code with
        | none => .empty
        | some _ => .course code timing
  | .gpa g => if g ≤ current_gpa then .empty else .gpa g
  | .placement subject lvl =>
      if placements.any (fun p =>
          p.subject == subject && decide (placementRank lvl ≤ placementRank p.level))
      then .empty else .placement subject lvl
  | .level l => if levelRank l ≤ levelRank level then .empty else .level l
  | .permission authority => .permission authority
  | .other _ => .empty
  | .andReq rs =>
      let simplified_children :=
        (simplify_children catalog current_gpa placements completed_courses level
          rs).filter fun r => !r.isNone
      if simplified_children.isEmpty then .empty
      else .andReq (.ofList simplified_children)
  | .orReq rs =>
      let ss := simplify_children catalog current_gpa placements completed_courses level rs
      let simplified_children := if ss.any Req.isNone then [] else ss
      if simplified_children.isEmpty then .empty
      else .orReq (.ofList simplified_children)
  | .creditsFrom credits_required rs =>
      let total_credits :=
        credit_sum catalog completed_courses
          (extract_course_codes (.creditsFrom credits_required rs))
      if credits_required ≤ total_credits then .empty
      else .creditsFrom (credits_required - total_credits) rs
  | .chooseN choose rs =>
      let count :=
        completed_count completed_courses (extract_course_codes (.chooseN choose rs))
      if choose ≤ count then .empty
      else .chooseN (choose - count) rs
termination_by structural r => r

/-- Child-by-child simplification (the loop bodies of `resolve_and` /
`resolve_or`). -/
def simplify_children (catalog : List ParsedCourse) (current_gpa : ℚ)
    (placements : List Placement) (completed_courses : List String)
    (level : LevelName) : ReqList → List Req
  | .nil => []
  | .cons r rs =>
      simplify_requirement catalog current_gpa placements completed_courses level r ::
        simplify_children catalog current_gpa placements completed_courses level rs
termination_by structural rs => rs

end

theorem simplify_children_eq_map (catalog : List ParsedCourse) (g : ℚ)
    (pl : List Placement) (comp : List String) (lvl : LevelName) (rs : ReqList) :
    simplify_children catalog g pl comp lvl rs =
      rs.toList.map (simplify_requirement catalog g pl comp lvl) := by
  induction rs using ReqList.recList with
  | hnil => rfl
  | hcons r rs ih => simp [simplify_children, ReqList.toList, ih]

theorem extract_children_eq_list (rs : ReqList) :
    extract_course_codes_children rs = extract_course_codes_list rs.toList := by
  induction rs using ReqList.recList with
  | hnil => rfl
  | hcons r rs ih =>
    simp [extract_course_codes_children, ReqList.toList, extract_course_codes_list, ih]

theorem collect_children_eq_list (rs : ReqList) :
    collect_all_course_codes_children rs = collect_all_course_codes_list rs.toList := by
  induction rs using ReqList.recList with
  | hnil => rfl
  | hcons r rs ih =>
    simp [collect_all_course_codes_children, ReqList.toList,
      collect_all_course_codes_list, ih]

theorem mem_extract_list {a : String} {rs : List Req} :
    a ∈ extract_course_codes_list rs ↔ ∃ r ∈ rs, a ∈ extract_course_codes r := by
  induction rs with
  | nil => simp [extract_course_codes_list]
  | cons r rs ih =>
    simp [extract_course_codes_list] at ih ⊢
    rw [ih]

theorem mem_collect_list {a : String} {rs : List Req} :
    a ∈ collect_all_course_codes_list rs ↔ ∃ r ∈ rs, a ∈ collect_all_course_codes r := by
  induction rs with
  | nil => simp [collect_all_course_codes_list]
  | cons r rs ih =>
    simp [collect_all_course_codes_list] at ih ⊢
    rw [ih]

deriving instance DecidableEq for Except

/-- Lexicographic comparison of code points; the order used to model
`sorted(...)` over sets of course-code strings.  (Defined from scratch
because it must evaluate by kernel reduction.) -/
def natListLe : List Nat → List Nat → Bool
  | [], _ => true
  | _ :: _, [] => false
  | a :: as, b :: bs => if a < b then true else if b < a then false else natListLe as bs

/-- `sorted` order on course-code strings. -/
def codeLe (a b : String) : Prop :=
  natListLe (a.data.map Char.toNat) (b.data.map Char.toNat) = true

instance : DecidableRel codeLe := fun a b => by unfold codeLe; infer_instance

theorem natListLe_total : ∀ as bs : List Nat,
    natListLe as bs = true ∨ natListLe bs as = true := by
  intro as
  induction as with
  | nil => intro bs; left; rfl
  | cons a as ih =>
    intro bs
    cases bs with
    | nil => right; rfl
    | cons b bs =>
      rcases Nat.lt_trichotomy a b with h | h | h
      · left; simp [natListLe, h]
      · subst h
        rcases ih bs with h2 | h2
        · left; simp [natListLe, h2]
        · right; simp [natListLe, h2]
      · right; simp [natListLe, h]

theorem natListLe_antisymm : ∀ as bs : List Nat,
    natListLe as bs = true → natListLe bs as = true → as = bs := by
  intro as
  induction as with
  | nil =>
    intro bs _ h2
    cases bs with
    | nil => rfl
    | cons b bs => simp [natListLe] at h2
  | cons a as ih =>
    intro bs h1 h2
    cases bs with
    | nil => simp [natListLe] at h1
    | cons b bs =>
      simp only [natListLe] at h1 h2
      rcases Nat.lt_trichotomy a b with h | h | h
      · simp [h, Nat.lt_asymm h] at h2
      · subst h
        simp only [Nat.lt_irrefl, if_false] at h1 h2
        rw [ih bs h1 h2]
      · simp [h, Nat.lt_asymm h] at h1

theorem natListLe_trans : ∀ as bs cs : List Nat,
    natListLe as bs = true → natListLe bs cs = true → natListLe as cs = true := by
  intro as
  induction as with
  | nil => intro bs cs _ _; rfl
  | cons a as ih =>
    intro bs cs h1 h2
    cases bs with
    | nil => simp [natListLe] at h1
    | cons b bs =>
      cases cs with
      | nil => simp [natListLe] at h2
      | cons c cs =>
        simp only [natListLe] at h1 h2 ⊢
        rcases Nat.lt_trichotomy a b with hab | hab | hab
        · rcases Nat.lt_trichotomy b c with hbc | hbc | hbc
          · simp [Nat.lt_trans hab hbc]
          · subst hbc; simp [hab]
          · simp [hbc, Nat.lt_asymm hbc] at h2
        · subst hab
          rcases Nat.lt_trichotomy a c with hac | hac | hac
          · simp [hac]
          · subst hac
            simp only [Nat.lt_irrefl, if_false] at h1 h2 ⊢
            exact ih bs cs h1 h2
          · simp [hac, Nat.lt_asymm hac] at h2
        · simp [hab, Nat.lt_asymm hab] at h1

theorem codePoints_injective :
    Function.Injective (fun s : String => s.data.map Char.toNat) := by
  intro a b h
  have hchar : Function.Injective Char.toNat := by
    intro c d hcd
    exact Char.ext (UInt32.ext hcd)
  have hdata : a.data = b.data := List.map_injective_iff.mpr hchar h
  cases a
  cases b
  exact congrArg String.mk hdata

instance : IsTotal String codeLe :=
  ⟨fun _ _ => natListLe_total _ _⟩

instance : IsTrans String codeLe :=
  ⟨fun _ _ _ h1 h2 => natListLe_trans _ _ _ h1 h2⟩

instance : IsAntisymm String codeLe :=
  ⟨fun _ _ h1 h2 => codePoints_injective (natListLe_antisymm _ _ h1 h2)⟩

instance : IsRefl String codeLe :=
  ⟨fun a => by
    rcases natListLe_total (a.data.map Char.toNat) (a.data.map Char.toNat) with h | h <;>
      exact h⟩

/-- Sorted listing of a set of course codes — the model of Python's
`sorted(...)` on a set (an insertion sort, which evaluates by kernel
reduction). -/
def sortCodes (s : Finset String) : List String :=
  Quot.lift (fun l : List String => l.insertionSort codeLe)
    (fun a b hab => by
      apply List.eq_of_perm_of_sorted
        (((a.perm_insertionSort codeLe).trans hab).trans
          (b.perm_insertionSort codeLe).symm)
        (List.sorted_insertionSort codeLe a) (List.sorted_insertionSort codeLe b))
    s.val

theorem sortCodes_coe (s : Finset String) : (sortCodes s : Multiset String) = s.val := by
  rcases s with ⟨m, hm⟩
  induction m using Quot.ind with
  | _ l => exact Quot.sound (l.perm_insertionSort codeLe)

theorem mem_sortCodes {a : String} {s : Finset String} : a ∈ sortCodes s ↔ a ∈ s := by
  rw [Finset.mem_def, ← sortCodes_coe s, Multiset.mem_coe]

theorem sortCodes_nodup (s : Finset String) : (sortCodes s).Nodup := by
  have hnd := s.nodup
  rw [← sortCodes_coe s] at hnd
  exact hnd

/-- One output term of the pattern-aware scheduler.  The source stores the
per-term course lists in chronological order; the embedding additionally
records the `(is_spring, year)` loop variables in force when the term was
emitted. -/
structure Term where
  isSpring : Bool
  year : Nat
  courses : List String
deriving DecidableEq, Repr

/-- Errors of `schedule_courses`: the `KeyError` raised by the `in_degree`
dict comprehension when a required course is missing from the catalog, and
the `RuntimeError` raised when no course is available while courses remain. -/
inductive SchedError where
  | keyError
  | runtimeError
deriving DecidableEq, Repr

/-- Mutable state of the scheduling loop of `schedule_courses`. -/
structure SchedState where
  year : Nat
  isSpring : Bool
  deg : String → Nat
  avail : Finset String
  remaining : Finset String

/-- `prereq_map[course]` of `schedule_courses`: the course codes of the raw
prerequisite tree that are also in the required set. -/
def prereq_map (catalog : List ParsedCourse) (req0 : Finset String) (course : String) :
    Finset String :=
  match get_course catalog course with
  | none => ∅
  | some course_obj =>
      (collect_all_course_codes_list course_obj.requisite).filter (· ∈ req0)

/-- `reverse_map[course]`: the dependents of a course (the required courses
whose prerequisite set contains it). -/
def reverse_map (catalog : List ParsedCourse) (req0 : Finset String) (course : String) :
    Finset String :=
  req0.filter (fun dependent => course ∈ prereq_map catalog req0 dependent)

/-- Scheduling one course of `offered_now`: remove it from `available` and
`remaining`, decrement the in-degree of each dependent and promote dependents
whose in-degree reaches 0 (`in_degree[dependent] -= 1` followed by the
`== 0` check promotes exactly the dependents whose in-degree was 1). -/
def processOne (catalog : List ParsedCourse) (req0 : Finset String) (course : String)
    (st : SchedState) : SchedState :=
  { st with
    avail := st.avail.erase course ∪
      (reverse_map catalog req0 course).filter (fun dependent => st.deg dependent = 1)
    remaining := st.remaining.erase course
    deg := fun dependent =>
      if dependent ∈ reverse_map catalog req0 course then st.deg dependent - 1
      else st.deg dependent }

/-- Advance the term clock: spring → fall of the same year, fall → spring of
the following year. -/
def advanceTerm (st : SchedState) : SchedState :=
  if st.isSpring then { st with isSpring := false }
  else { st with isSpring := true, year := st.year + 1 }

/-- The `while remaining:` loop of `schedule_courses` (Step 3).  `offered`
iterates the `available` set in sorted code order; python's set iteration
order is unspecified, and the net effect of one term is order-independent. -/
def scheduleLoop (catalog : List ParsedCourse) (req0 : Finset String) :
    Nat → SchedState → Option (Except SchedError (List Term))
  | 0, _ => none
  | fuel + 1, st =>
    if st.remaining = ∅ then some (.ok [])
    else
      let offered := (sortCodes st.avail).filter fun course =>
        match get_course catalog course with
        | some course_obj => pattern_allows course_obj.pattern st.isSpring st.year
        | none => false
      let st1 := offered.foldl (fun s course => processOne catalog req0 course s) st
      if st1.avail = ∅ ∧ st1.remaining ≠ ∅ then some (.error .runtimeError)
      else
        match scheduleLoop catalog req0 fuel (advanceTerm st1) with
        | none => none
        | some (.error e) => some (.error e)
        | some (.ok terms) =>
            some (.ok (if offered.isEmpty then terms
              else { isSpring := st.isSpring, year := st.year, courses := offered } :: terms))

/-- `schedule_courses(all_required, config)` — the pattern-aware scheduler.
Completed courses are removed up front (Step 0); the dependency graph over
the remaining set is `prereq_map` (Step 1); any remaining course missing
from the catalog makes the `in_degree` comprehension raise `KeyError`
(Step 2); then the semester loop runs (Step 3). -/
def schedule_courses (fuel : Nat) (catalog : List ParsedCourse)
    (all_required : Finset String) (config : Config) :
    Option (Except SchedError (List Term)) :=
  let req0 := all_required \ config.completed_course_work.toFinset
  if (req0.filter (fun course => (get_course catalog course).isNone)).Nonempty then
    some (.error .keyError)
  else
    let deg0 : String → Nat := fun course => (prereq_map catalog req0 course).card
    scheduleLoop catalog req0 fuel
      { year := config.start_year
        isSpring := config.start_term == "spring"
        deg := deg0
        avail := req0.filter (fun course => deg0 course = 0)
        remaining := req0 }

mutual

/-- A requirement tree in which no `CREDITS_FROM` / `CHOOSE_N` node is
partially satisfied: each such node either records no completed progress at
all, or is already fully satisfied.  (This is the side condition under which
simplification is idempotent.) -/
def no_partial_progress (catalog : List ParsedCourse) (completed : List String) : Req → Bool
  | .andReq rs => no_partial_progress_children catalog completed rs
  | .orReq rs => no_partial_progress_children catalog completed rs
  | .creditsFrom c rs =>
      decide (credit_sum catalog completed (extract_course_codes (.creditsFrom c rs)) = 0 ∨
        c ≤ credit_sum catalog completed (extract_course_codes (.creditsFrom c rs)))
  | .chooseN n rs =>
      decide (completed_count completed (extract_course_codes (.chooseN n rs)) = 0 ∨
        n ≤ completed_count completed (extract_course_codes (.chooseN n rs)))
  | _ => true
termination_by structural r => r

/-- `no_partial_progress` over a child list. -/
def no_partial_progress_children (catalog : List ParsedCourse) (completed : List String) :
    ReqList → Bool
  | .nil => true
  | .cons r rs =>
      no_partial_progress catalog completed r &&
        no_partial_progress_children catalog completed rs
termination_by structural rs => rs

end

theorem no_partial_progress_children_iff (catalog : List ParsedCourse)
    (completed : List String) (rs : ReqList) :
    no_partial_progress_children catalog completed rs = true ↔
      ∀ r ∈ rs.toList, no_partial_progress catalog completed r = true := by
  induction rs using ReqList.recList with
  | hnil => simp [no_partial_progress_children, ReqList.toList]
  | hcons r rs ih => simp [no_partial_progress_children, ReqList.toList, ih]


/-- A catalog entry with the descriptive fields defaulted (used to build the
concrete example catalogs below). -/
def sampleCourse (code : String) (credits : ℚ) (pat : OfferingPattern)
    (reqs : List Req) : ParsedCourse :=
  { name := code, code := code, requisite_string := none, requisite := reqs,
    component := "LEC", bricks := [], min_credits := credits, max_credits := credits,
    pattern := pat }

/-- Three 3-credit electives with no prerequisites (the `CREDITS_FROM`
scenario of the spec). -/
def catalogDEF : List ParsedCourse :=
  [sampleCourse "D" 3 .fall_and_spring [.empty],
   sampleCourse "E" 3 .fall_and_spring [.empty],
   sampleCourse "F" 3 .fall_and_spring [.empty]]

/-- The child menu `[COURSE D, COURSE E, COURSE F]`. -/
def rsDEF : ReqList :=
  .ofList [.course "D" .completed, .course "E" .completed, .course "F" .completed]

/-- Catalog of the scheduling scenario: `A` offered in fall with no
prerequisites, `B` offered in spring and requiring `A`. -/
def catalogAB : List ParsedCourse :=
  [sampleCourse "A" 3 .fall [.empty],
   sampleCourse "B" 3 .spring [.course "A" .completed]]

/-- A catalog consisting of one deactivated course `C`. -/
def catalogDeact : List ParsedCourse :=
  [sampleCourse "C" 3 .deactivated [.empty]]

/-- A fresh student starting in fall 2025. -/
def configFall2025 : Config :=
  { completed_course_work := [], placements := [], gpa := 4, level := .freshman,
    credits_per_semester := 16, start_year := 2025, start_term := "fall" }

theorem credit_sum_DEF :
    credit_sum catalogDEF ["D"] ({"D", "E", "F"} : Finset String) = 3 := by
  rw [credit_sum]
  rw [Finset.sum_insert (by decide), Finset.sum_insert (by decide), Finset.sum_singleton]
  simp +decide only [get_course, catalogDEF, sampleCourse, List.find?, List.contains]
  norm_num

theorem extract_cf_DEF (c : ℚ) :
    extract_course_codes (.creditsFrom c rsDEF) = ({"D", "E", "F"} : Finset String) := by
  show extract_course_codes_children rsDEF = ({"D", "E", "F"} : Finset String)
  decide

theorem simplify_cf6_DEF :
    simplify_requirement catalogDEF 4 [] ["D"] .freshman (.creditsFrom 6 rsDEF) =
      .creditsFrom 3 rsDEF := by
  rw [simplify_requirement, extract_cf_DEF, credit_sum_DEF]
  rw [if_neg (by norm_num)]
  norm_num

theorem simplify_cf3_DEF :
    simplify_requirement catalogDEF 4 [] ["D"] .freshman (.creditsFrom 3 rsDEF) =
      .empty := by
  rw [simplify_requirement, extract_cf_DEF, credit_sum_DEF]
  rw [if_pos (by norm_num)]

/-- A tree with an `AND` of a course leaf and an untouched `CHOOSE_N` menu
(used to witness the amended idempotence claim). -/
def claim3SampleTree : Req :=
  .andReq (.ofList [.course "D" .completed,
    .chooseN 2 (.ofList [.course "E" .completed, .course "F" .completed])])

/-- C3 (corrected, counterexample): simplification is not idempotent as
claimed.  For `CREDITS_FROM{6, [D,E,F]}` with `D` (3 credits) completed the
first pass returns `CREDITS_FROM{3, [D,E,F]}`, and a second pass subtracts
the same 3 completed credits again and collapses the node to `NONE`. -/
theorem claim3_counterexample :
    ¬ (simplify_requirement catalogDEF 4 [] ["D"] .freshman
        (simplify_requirement catalogDEF 4 [] ["D"] .freshman (.creditsFrom 6 rsDEF)) =
      simplify_requirement catalogDEF 4 [] ["D"] .freshman (.creditsFrom 6 rsDEF)) := by
  rw [simplify_cf6_DEF, simplify_cf3_DEF]
  decide

/-- C3 (amended): `simplify(simplify(node, S), S) = simplify(node, S)` holds
for every node in which no `CREDITS_FROM` / `CHOOSE_N` node is strictly
partially satisfied (each such node has either zero completed progress or is
already fully satisfied); the unrestricted claim fails exactly on the
partially reduced thresholds, see `claim3_counterexample`. -/
theorem claim3_idempotent_no_partial (catalog : List ParsedCourse) (g : ℚ) (pl : List Placement)
    (completed : List String) (lvl : LevelName) :
    ∀ r : Req, no_partial_progress catalog completed r = true →
      simplify_requirement catalog g pl completed lvl
          (simplify_requirement catalog g pl completed lvl r) =
        simplify_requirement catalog g pl completed lvl r := by
  intro r
  induction r using Req.recMem with
  | hempty => intro _; rfl
  | hperm s => intro _; rfl
  | hother s => intro _; rfl
  | hlevel l =>
    intro _
    by_cases h : levelRank l ≤ levelRank lvl <;> simp [simplify_requirement, h]
  | hgpa gg =>
    intro _
    by_cases h : gg ≤ g <;> simp [simplify_requirement, h]
  | hplac s l =>
    intro _
    by_cases h : pl.any (fun p =>
        p.subject == s && decide (placementRank l ≤ placementRank p.level)) <;>
      simp [simplify_requirement, h]
  | hcourse code timing =>
    intro _
    by_cases h : code ∈ completed
    · simp [simplify_requirement, h]
    · cases hgc : get_course catalog code with
      | none => simp [simplify_requirement, h, hgc]
      | some course => simp [simplify_requirement, h, hgc]
  | hand rs ih =>
    intro hnp
    have hch : ∀ x ∈ rs.toList, no_partial_progress catalog completed x = true := by
      rw [← no_partial_progress_children_iff catalog completed rs]
      exact hnp
    rw [simplify_requirement]
    by_cases he : ((simplify_children catalog g pl completed lvl rs).filter
        fun x => !x.isNone).isEmpty
    · simp [he, simplify_requirement]
    · rw [if_neg he]
      rw [simplify_requirement]
      have h2 : simplify_children catalog g pl completed lvl
          (.ofList ((simplify_children catalog g pl completed lvl rs).filter
            fun x => !x.isNone)) =
          (simplify_children catalog g pl completed lvl rs).filter fun x => !x.isNone := by
        rw [simplify_children_eq_map, ReqList.toList_ofList]
        refine (List.map_congr_left ?_).trans (List.map_id _)
        intro s hs
        rcases List.mem_filter.mp hs with ⟨hsmem, _⟩
        rw [simplify_children_eq_map] at hsmem
        rcases List.mem_map.mp hsmem with ⟨x, hx, rfl⟩
        exact ih x hx (hch x hx)
      rw [h2]
      have h3 : ((simplify_children catalog g pl completed lvl rs).filter
            (fun x => !x.isNone)).filter (fun x => !x.isNone) =
          (simplify_children catalog g pl completed lvl rs).filter fun x => !x.isNone := by
        rw [List.filter_filter]
        simp
      rw [h3]
      rw [if_neg he]
  | hor rs ih =>
    intro hnp
    have hch : ∀ x ∈ rs.toList, no_partial_progress catalog completed x = true := by
      rw [← no_partial_progress_children_iff catalog completed rs]
      exact hnp
    rw [simplify_requirement]
    by_cases hany : (simplify_children catalog g pl completed lvl rs).any Req.isNone = true
    · simp [hany, simplify_requirement]
    · have hany2 : (simplify_children catalog g pl completed lvl rs).any Req.isNone = false := by
        simpa using hany
      simp only [hany2, Bool.false_eq_true, if_false]
      by_cases he : (simplify_children catalog g pl completed lvl rs).isEmpty
      · simp [he, simplify_requirement]
      · rw [if_neg he]
        rw [simplify_requirement]
        have h2 : simplify_children catalog g pl completed lvl
            (.ofList (simplify_children catalog g pl completed lvl rs)) =
            simplify_children catalog g pl completed lvl rs := by
          rw [simplify_children_eq_map, ReqList.toList_ofList]
          refine (List.map_congr_left ?_).trans (List.map_id _)
          intro s hs
          rw [simplify_children_eq_map] at hs
          rcases List.mem_map.mp hs with ⟨x, hx, rfl⟩
          exact ih x hx (hch x hx)
        rw [h2]
        simp only [hany2, Bool.false_eq_true, if_false]
        rw [if_neg he]
  | hcf c rs ih =>
    intro hnp
    have h := of_decide_eq_true (by simpa [no_partial_progress] using hnp)
    rw [simplify_requirement]
    by_cases hle : c ≤ credit_sum catalog completed
        (extract_course_codes (.creditsFrom c rs))
    · simp [hle, simplify_requirement]
    · have h0 : credit_sum catalog completed
          (extract_course_codes (.creditsFrom c rs)) = 0 :=
        h.resolve_right hle
      rw [if_neg hle]
      rw [simplify_requirement]
      have hsame : extract_course_codes
          (Req.creditsFrom (c - credit_sum catalog completed
            (extract_course_codes (.creditsFrom c rs))) rs) =
          extract_course_codes (.creditsFrom c rs) := rfl
      rw [hsame, h0, sub_zero]
      rw [if_neg (by rw [h0] at hle; simpa using hle)]
      rw [sub_zero]
  | hcn n rs ih =>
    intro hnp
    have h := of_decide_eq_true (by simpa [no_partial_progress] using hnp)
    rw [simplify_requirement]
    by_cases hle : n ≤ completed_count completed (extract_course_codes (.chooseN n rs))
    · simp [hle, simplify_requirement]
    · have h0 : completed_count completed (extract_course_codes (.chooseN n rs)) = 0 :=
        h.resolve_right hle
      rw [if_neg hle]
      rw [simplify_requirement]
      have hsame : extract_course_codes
          (Req.chooseN (n - completed_count completed
            (extract_course_codes (.chooseN n rs))) rs) =
          extract_course_codes (.chooseN n rs) := rfl
      rw [hsame, h0, Nat.sub_zero]
      rw [if_neg (by rw [h0] at hle; simpa using hle)]
      rw [Nat.sub_zero]

/-- Witness for C3 (amended) at a concrete tree containing an `AND`, a
course leaf and an untouched `CHOOSE_N`. -/
theorem claim3_witness :
    simplify_requirement catalogDEF 4 [] [] .freshman
        (simplify_requirement catalogDEF 4 [] [] .freshman claim3SampleTree) =
      simplify_requirement catalogDEF 4 [] [] .freshman claim3SampleTree :=
  claim3_idempotent_no_partial catalogDEF 4 [] [] .freshman claim3SampleTree (by decide)

/-- C7 (corrected, counterexample): `simplify(COURSE{c}, S) = NONE iff c ∈ S`
fails when `c` is absent from the catalog — the simplifier also returns
`NONE` for unknown courses (they cannot block scheduling). -/
theorem claim7_counterexample :
    ¬ (simplify_requirement [] 4 [] [] .freshman (.course "CS 1000" .completed) = .empty ↔
        "CS 1000" ∈ ([] : List String)) := by
  decide

/-- C7 (amended): for every course code `c` that is present in the catalog
and every completed set `S`, `simplify(COURSE{c}, S) = NONE` iff `c ∈ S`. -/
theorem claim7_course_simplification (catalog : List ParsedCourse) (g : ℚ)
    (pl : List Placement) (completed : List String) (lvl : LevelName)
    (code : String) (timing : Timing) (h : (get_course catalog code).isSome) :
    simplify_requirement catalog g pl completed lvl (.course code timing) = .empty ↔
      code ∈ completed := by
  rw [simplify_requirement]
  by_cases hc : completed.contains code
  · simp [hc, List.mem_of_elem_eq_true hc]
  · rcases Option.isSome_iff_exists.mp h with ⟨course, hcourse⟩
    rw [if_neg hc, hcourse]
    constructor
    · intro habs; cases habs
    · intro hmem; exact absurd (List.elem_eq_true_of_mem hmem) hc

/-- Witness for C7 (amended): course `D` of the concrete catalog, completed. -/
theorem claim7_witness :
    simplify_requirement catalogDEF 4 [] ["D"] .freshman (.course "D" .completed) = .empty :=
  (claim7_course_simplification catalogDEF 4 [] ["D"] .freshman "D" .completed
    (by decide)).mpr (by decide)

/-- C8 (confirmed): simplifying `CREDITS_FROM{c, children}` never touches
the children; with `t` the summed `minCredits` of the completed courses
among all codes in the subtree, the node becomes `NONE` iff `t ≥ c` and
otherwise becomes `CREDITS_FROM{c - t, children}` with the child list
unchanged. -/
theorem claim8_creditsFrom_simplification (catalog : List ParsedCourse) (g : ℚ)
    (pl : List Placement) (completed : List String) (lvl : LevelName)
    (c : ℚ) (rs : ReqList) :
    (simplify_requirement catalog g pl completed lvl (.creditsFrom c rs) = .empty ↔
      c ≤ credit_sum catalog completed (extract_course_codes (.creditsFrom c rs))) ∧
    (¬ c ≤ credit_sum catalog completed (extract_course_codes (.creditsFrom c rs)) →
      simplify_requirement catalog g pl completed lvl (.creditsFrom c rs) =
        .creditsFrom
          (c - credit_sum catalog completed (extract_course_codes (.creditsFrom c rs))) rs) := by
  rw [simplify_requirement]
  by_cases h : c ≤ credit_sum catalog completed (extract_course_codes (.creditsFrom c rs))
  · simp [h]
  · simp [h]

/-- Witness for C8: the spec scenario — 6 credits required over `[D,E,F]`
with `D` (3 credits) completed reduces to `CREDITS_FROM{3, [D,E,F]}` with
the children untouched. -/
theorem claim8_witness :
    simplify_requirement catalogDEF 4 [] ["D"] .freshman (.creditsFrom 6 rsDEF) =
      .creditsFrom 3 rsDEF := by
  have hsum : credit_sum catalogDEF ["D"] (extract_course_codes (.creditsFrom 6 rsDEF)) = 3 := by
    rw [extract_cf_DEF, credit_sum_DEF]
  have h := (claim8_creditsFrom_simplification catalogDEF 4 [] ["D"] .freshman 6 rsDEF).2
    (by rw [hsum]; norm_num)
  rw [h, hsum]
  norm_num

/-- Scheduling a batch of offered courses keeps any non-offered course in
both `available` and `remaining` (`processOne` only removes the course it
schedules). -/
theorem foldl_processOne_keep (catalog : List ParsedCourse) (req0 : Finset String)
    (c : String) :
    ∀ l : List String, ∀ st : SchedState, c ∉ l → c ∈ st.avail → c ∈ st.remaining →
      c ∈ (l.foldl (fun s course => processOne catalog req0 course s) st).avail ∧
      c ∈ (l.foldl (fun s course => processOne catalog req0 course s) st).remaining := by
  intro l
  induction l with
  | nil =>
    intro st _ hav hrem
    exact ⟨hav, hrem⟩
  | cons a l ih =>
    intro st hnl hav hrem
    have hne : c ≠ a := fun h => hnl (h ▸ List.mem_cons_self a l)
    have hnl2 : c ∉ l := fun h => hnl (List.mem_cons_of_mem a h)
    rw [List.foldl_cons]
    refine ih (processOne catalog req0 a st) hnl2 ?_ ?_
    · show c ∈ st.avail.erase a ∪
        (reverse_map catalog req0 a).filter (fun dependent => st.deg dependent = 1)
      exact Finset.mem_union_left _ (Finset.mem_erase.mpr ⟨hne, hav⟩)
    · show c ∈ st.remaining.erase a
      exact Finset.mem_erase.mpr ⟨hne, hrem⟩

/-- If `available` holds a catalog-present `deactivated` course that is still
in `remaining`, the semester loop of `schedule_courses` never terminates:
the course is never offered (its pattern allows no term), it keeps
`available` non-empty so the deadlock check never fires, and it keeps
`remaining` non-empty so the loop never exits — for every fuel the loop
returns neither a schedule nor an error. -/
theorem scheduleLoop_deactivated_diverges (catalog : List ParsedCourse)
    (req0 : Finset String) (c : String) (co : ParsedCourse)
    (hco : get_course catalog c = some co) (hpat : co.pattern = .deactivated) :
    ∀ fuel st, c ∈ st.avail → c ∈ st.remaining →
      scheduleLoop catalog req0 fuel st = none := by
  intro fuel
  induction fuel with
  | zero =>
    intro st _ _
    rfl
  | succ fuel ih =>
    intro st hav hrem
    rw [scheduleLoop]
    have hrne : ¬ st.remaining = ∅ := fun h =>
      absurd (h ▸ hrem) (Finset.not_mem_empty c)
    rw [if_neg hrne]
    simp only
    set offered := (sortCodes st.avail).filter (fun course =>
      match get_course catalog course with
      | some course_obj => pattern_allows course_obj.pattern st.isSpring st.year
      | none => false) with hofferedDef
    set st1 := offered.foldl (fun s course => processOne catalog req0 course s) st with hst1
    have hcoff : c ∉ offered := by
      intro hmem
      have hfil := (List.mem_filter.mp hmem).2
      rw [hco] at hfil
      simp only at hfil
      rw [hpat] at hfil
      rw [show pattern_allows OfferingPattern.deactivated st.isSpring st.year = false
        from rfl] at hfil
      cases hfil
    have hkeep := foldl_processOne_keep catalog req0 c offered st hcoff hav hrem
    rw [← hst1] at hkeep
    have hguard : ¬ (st1.avail = ∅ ∧ st1.remaining ≠ ∅) := by
      rintro ⟨h1, _⟩
      exact absurd (h1 ▸ hkeep.1) (Finset.not_mem_empty c)
    rw [if_neg hguard]
    have hadv : (advanceTerm st1).avail = st1.avail ∧
        (advanceTerm st1).remaining = st1.remaining := by
      rw [advanceTerm]
      split <;> exact ⟨rfl, rfl⟩
    have hrec : scheduleLoop catalog req0 fuel (advanceTerm st1) = none := by
      refine ih (advanceTerm st1) ?_ ?_
      · rw [hadv.1]
        exact hkeep.1
      · rw [hadv.2]
        exact hkeep.2
    rw [hrec]

/-- C2 (code bug): the claimed behaviour does not exist in the code.  No
`DeactivatedCourseRequired` error is raised anywhere; instead, every run
whose required set contains an uncompleted, catalog-present course with
pattern `deactivated` and no required prerequisite (all required courses
present in the catalog, so the unrelated `KeyError` abort of claim C4 does
not mask it) terminates with NO error and NO schedule: the deactivated
course is never offered yet sits in `available`, so the deadlock
`RuntimeError` never fires and the `while remaining:` loop runs forever —
modelled as returning `none` at every fuel. -/
theorem claim2_deactivated_never_fails (catalog : List ParsedCourse)
    (all_required : Finset String) (config : Config) (c : String) (co : ParsedCourse)
    (hreq : c ∈ all_required)
    (hncomp : c ∉ config.completed_course_work)
    (hco : get_course catalog c = some co)
    (hpat : co.pattern = .deactivated)
    (hnopre : prereq_map catalog
      (all_required \ config.completed_course_work.toFinset) c = ∅)
    (hfound : ∀ d ∈ all_required \ config.completed_course_work.toFinset,
      (get_course catalog d).isSome) :
    ∀ fuel, schedule_courses fuel catalog all_required config = none := by
  intro fuel
  rw [schedule_courses]
  have hnone : ¬ ((all_required \ config.completed_course_work.toFinset).filter
      (fun course => (get_course catalog course).isNone)).Nonempty := by
    rintro ⟨d, hd⟩
    rcases Finset.mem_filter.mp hd with ⟨hd1, hd2⟩
    have hs := hfound d hd1
    cases hgc : get_course catalog d with
    | none =>
      rw [hgc] at hs
      exact absurd hs (by decide)
    | some o =>
      rw [hgc] at hd2
      simp at hd2
  rw [if_neg hnone]
  have hcreq0 : c ∈ all_required \ config.completed_course_work.toFinset :=
    Finset.mem_sdiff.mpr ⟨hreq, fun h => hncomp (List.mem_toFinset.mp h)⟩
  refine scheduleLoop_deactivated_diverges catalog _ c co hco hpat fuel _ ?_ hcreq0
  refine Finset.mem_filter.mpr ⟨hcreq0, ?_⟩
  show (prereq_map catalog (all_required \ config.completed_course_work.toFinset) c).card = 0
  rw [hnopre]
  rfl

/-- C2 witness: required set `{C}` with `C` deactivated, uncompleted and
prerequisite-free — at fuel 100 the scheduler has neither produced a
schedule nor raised any error. -/
theorem claim2_witness :
    schedule_courses 100 catalogDeact {"C"} configFall2025 = none :=
  claim2_deactivated_never_fails catalogDeact {"C"} configFall2025 "C"
    (sampleCourse "C" 3 .deactivated [.empty])
    (by decide) (by decide) rfl rfl (by decide) (by decide) 100

/-- C4 (code bug): when a course code of the required set is absent from the
catalog, the run ABORTS in `schedule_courses`: Step 1 skips the course (its
lookup failure is only logged), so the `in_degree` dict comprehension of
Step 2 raises `KeyError` — for any fuel, the scheduler returns the
`KeyError` outcome instead of proceeding to a schedule. -/
theorem claim4_unknown_course_aborts_scheduler : ∀ fuel,
    schedule_courses fuel [] {"XX 1000"} configFall2025 = some (.error .keyError) := by
  intro fuel
  rfl

theorem prereq_map_subset (catalog : List ParsedCourse) (req0 : Finset String)
    (c : String) : prereq_map catalog req0 c ⊆ req0 := by
  rw [prereq_map]
  cases get_course catalog c with
  | none => simp
  | some course =>
    intro x hx
    exact (Finset.mem_filter.mp hx).2

theorem mem_reverse_map {catalog : List ParsedCourse} {req0 : Finset String}
    {c d : String} :
    d ∈ reverse_map catalog req0 c ↔ d ∈ req0 ∧ c ∈ prereq_map catalog req0 d := by
  rw [reverse_map]
  exact Finset.mem_filter

structure SchedInv (catalog : List ParsedCourse) (req0 : Finset String)
    (st : SchedState) : Prop where
  avail_eq : st.avail = st.remaining.filter
    (fun c => prereq_map catalog req0 c ∩ st.remaining = ∅)
  deg_eq : ∀ d ∈ req0, st.deg d = (prereq_map catalog req0 d ∩ st.remaining).card
  done_free : ∀ d ∈ req0, d ∉ st.remaining → prereq_map catalog req0 d ∩ st.remaining = ∅
  rem_sub : st.remaining ⊆ req0

theorem processOne_inv {catalog : List ParsedCourse} {req0 : Finset String}
    {st : SchedState} {c : String} (inv : SchedInv catalog req0 st)
    (hc : c ∈ st.avail) :
    SchedInv catalog req0 (processOne catalog req0 c st) ∧
      (processOne catalog req0 c st).remaining = st.remaining.erase c ∧
      st.avail.erase c ⊆ (processOne catalog req0 c st).avail ∧
      (processOne catalog req0 c st).year = st.year ∧
      (processOne catalog req0 c st).isSpring = st.isSpring := by
  have hcR : c ∈ st.remaining := by
    have := inv.avail_eq ▸ hc
    exact (Finset.mem_filter.mp this).1
  have hcP : prereq_map catalog req0 c ∩ st.remaining = ∅ := by
    have := inv.avail_eq ▸ hc
    exact (Finset.mem_filter.mp this).2
  have hR : st.remaining = insert c (st.remaining.erase c) :=
    (Finset.insert_erase hcR).symm
  refine ⟨⟨?_, ?_, ?_, ?_⟩, rfl, ?_, rfl, rfl⟩
  · -- avail_eq for the new state
    ext x
    simp only [processOne, Finset.mem_union, Finset.mem_erase, Finset.mem_filter,
      mem_reverse_map]
    constructor
    · rintro (⟨hxc, hxA⟩ | ⟨⟨hxreq, hcPx⟩, hdeg1⟩)
      · have hx := inv.avail_eq ▸ hxA
        rcases Finset.mem_filter.mp hx with ⟨hxR, hxP⟩
        refine ⟨⟨hxc, hxR⟩, ?_⟩
        apply Finset.eq_empty_of_forall_not_mem
        intro y hy
        rcases Finset.mem_inter.mp hy with ⟨hy1, hy2⟩
        have : y ∈ prereq_map catalog req0 x ∩ st.remaining :=
          Finset.mem_inter.mpr ⟨hy1, Finset.mem_of_mem_erase hy2⟩
        rw [hxP] at this
        exact absurd this (Finset.not_mem_empty y)
      · -- promoted dependent
        have hdx : st.deg x = (prereq_map catalog req0 x ∩ st.remaining).card :=
          inv.deg_eq x hxreq
        have hcard1 : (prereq_map catalog req0 x ∩ st.remaining).card = 1 := by
          rw [← hdx]; exact hdeg1
        have hxR : x ∈ st.remaining := by
          by_contra hnot
          have := inv.done_free x hxreq hnot
          rw [this] at hcard1
          simp at hcard1
        have hcmem : c ∈ prereq_map catalog req0 x ∩ st.remaining :=
          Finset.mem_inter.mpr ⟨hcPx, hcR⟩
        have hsingle : prereq_map catalog req0 x ∩ st.remaining = {c} := by
          rcases Finset.card_eq_one.mp hcard1 with ⟨a, ha⟩
          rw [ha] at hcmem ⊢
          rw [Finset.mem_singleton.mp hcmem]
        have hxc : x ≠ c := by
          intro h
          rw [h, hcP] at hcmem
          exact absurd hcmem (Finset.not_mem_empty _)
        refine ⟨⟨hxc, hxR⟩, ?_⟩
        have : prereq_map catalog req0 x ∩ st.remaining.erase c =
            (prereq_map catalog req0 x ∩ st.remaining).erase c := by
          rw [Finset.inter_comm, Finset.erase_inter, Finset.inter_comm]
        rw [this, hsingle]
        simp
    · rintro ⟨⟨hxc, hxR⟩, hxfree⟩
      by_cases hcPx : c ∈ prereq_map catalog req0 x
      · right
        have hxreq : x ∈ req0 := inv.rem_sub hxR
        refine ⟨⟨hxreq, hcPx⟩, ?_⟩
        rw [inv.deg_eq x hxreq]
        have : prereq_map catalog req0 x ∩ st.remaining =
            insert c (prereq_map catalog req0 x ∩ st.remaining.erase c) := by
          conv_lhs => rw [hR]
          rw [Finset.inter_comm, Finset.insert_inter_of_mem hcPx, Finset.inter_comm]
        rw [this, hxfree]
        simp
      · left
        refine ⟨hxc, ?_⟩
        rw [inv.avail_eq]
        refine Finset.mem_filter.mpr ⟨hxR, ?_⟩
        apply Finset.eq_empty_of_forall_not_mem
        intro y hy
        rcases Finset.mem_inter.mp hy with ⟨hy1, hy2⟩
        have hyx : y ≠ c := by
          intro h; subst h; exact hcPx hy1
        have : y ∈ prereq_map catalog req0 x ∩ st.remaining.erase c :=
          Finset.mem_inter.mpr ⟨hy1, Finset.mem_erase.mpr ⟨hyx, hy2⟩⟩
        rw [hxfree] at this
        exact absurd this (Finset.not_mem_empty y)
  · -- deg_eq
    intro d hd
    simp only [processOne]
    have hinter : prereq_map catalog req0 d ∩ st.remaining.erase c =
        (prereq_map catalog req0 d ∩ st.remaining).erase c := by
      rw [Finset.inter_comm, Finset.erase_inter, Finset.inter_comm]
    by_cases hcPd : c ∈ prereq_map catalog req0 d
    · rw [if_pos (mem_reverse_map.mpr ⟨hd, hcPd⟩)]
      rw [inv.deg_eq d hd, hinter,
        Finset.card_erase_of_mem (Finset.mem_inter.mpr ⟨hcPd, hcR⟩)]
    · rw [if_neg (by
        intro hmem
        exact hcPd (mem_reverse_map.mp hmem).2)]
      rw [inv.deg_eq d hd, hinter,
        Finset.erase_eq_of_not_mem (by
          intro hmem
          exact hcPd (Finset.mem_inter.mp hmem).1)]
  · -- done_free
    intro d hd hnot
    simp only [processOne] at hnot ⊢
    apply Finset.eq_empty_of_forall_not_mem
    intro y hy
    rcases Finset.mem_inter.mp hy with ⟨hy1, hy2⟩
    by_cases hdc : d = c
    · subst hdc
      have : y ∈ prereq_map catalog req0 d ∩ st.remaining :=
        Finset.mem_inter.mpr ⟨hy1, Finset.mem_of_mem_erase hy2⟩
      rw [hcP] at this
      exact absurd this (Finset.not_mem_empty y)
    · have hdR : d ∉ st.remaining := by
        intro hmem
        exact hnot (Finset.mem_erase.mpr ⟨hdc, hmem⟩)
      have : y ∈ prereq_map catalog req0 d ∩ st.remaining :=
        Finset.mem_inter.mpr ⟨hy1, Finset.mem_of_mem_erase hy2⟩
      rw [inv.done_free d hd hdR] at this
      exact absurd this (Finset.not_mem_empty y)
  · -- rem_sub
    simp only [processOne]
    exact (Finset.erase_subset _ _).trans inv.rem_sub
  · -- erase-subset
    intro x hx
    simp only [processOne, Finset.mem_union]
    left
    exact hx

theorem foldBatch_inv {catalog : List ParsedCourse} {req0 : Finset String} :
    ∀ (O : List String) (st : SchedState), SchedInv catalog req0 st → O.Nodup →
      (∀ x ∈ O, x ∈ st.avail) →
      SchedInv catalog req0 (O.foldl (fun s course => processOne catalog req0 course s) st) ∧
      (O.foldl (fun s course => processOne catalog req0 course s) st).remaining =
        st.remaining \ O.toFinset ∧
      (O.foldl (fun s course => processOne catalog req0 course s) st).year = st.year ∧
      (O.foldl (fun s course => processOne catalog req0 course s) st).isSpring = st.isSpring := by
  intro O
  induction O with
  | nil =>
    intro st inv _ _
    exact ⟨inv, by simp, rfl, rfl⟩
  | cons c rest ih =>
    intro st inv hnd hmem
    rcases processOne_inv inv (hmem c (by simp)) with ⟨inv1, hrem1, hsub1, hy1, hsp1⟩
    rcases List.nodup_cons.mp hnd with ⟨hcnotin, hndrest⟩
    have hmem1 : ∀ x ∈ rest, x ∈ (processOne catalog req0 c st).avail := by
      intro x hx
      apply hsub1
      exact Finset.mem_erase.mpr ⟨fun h => hcnotin (h ▸ hx), hmem x (by simp [hx])⟩
    rcases ih (processOne catalog req0 c st) inv1 hndrest hmem1 with ⟨inv2, hrem2, hy2, hsp2⟩
    refine ⟨inv2, ?_, hy2.trans hy1, hsp2.trans hsp1⟩
    rw [List.foldl_cons, hrem2, hrem1]
    ext x
    simp only [Finset.mem_sdiff, Finset.mem_erase, List.toFinset_cons, Finset.mem_insert,
      List.mem_toFinset]
    constructor
    · rintro ⟨⟨hxc, hxR⟩, hxrest⟩
      exact ⟨hxR, by
        rintro (h | h)
        · exact hxc h
        · exact hxrest h⟩
    · rintro ⟨hxR, hxnot⟩
      exact ⟨⟨fun h => hxnot (Or.inl h), hxR⟩,
        fun h => hxnot (Or.inr h)⟩

theorem advanceTerm_remaining (st : SchedState) :
    (advanceTerm st).remaining = st.remaining := by
  rw [advanceTerm]; split <;> rfl

theorem advanceTerm_avail (st : SchedState) : (advanceTerm st).avail = st.avail := by
  rw [advanceTerm]; split <;> rfl

theorem advanceTerm_deg (st : SchedState) : (advanceTerm st).deg = st.deg := by
  rw [advanceTerm]; split <;> rfl

theorem schedInv_advanceTerm {catalog : List ParsedCourse} {req0 : Finset String}
    {st : SchedState} (inv : SchedInv catalog req0 st) :
    SchedInv catalog req0 (advanceTerm st) := by
  refine ⟨?_, ?_, ?_, ?_⟩ <;>
    rw [advanceTerm_remaining] <;>
    first
      | (rw [advanceTerm_avail]; exact inv.avail_eq)
      | (rw [advanceTerm_deg]; exact inv.deg_eq)
      | exact inv.done_free
      | exact inv.rem_sub

theorem scheduleLoop_ok_props {catalog : List ParsedCourse} {req0 : Finset String} :
    ∀ (fuel : Nat) (st : SchedState) (ts : List Term), SchedInv catalog req0 st →
      scheduleLoop catalog req0 fuel st = some (.ok ts) →
      ((ts.map Term.courses).flatten.toFinset = st.remaining ∧
        (ts.map Term.courses).flatten.Nodup) ∧
      (∀ t ∈ ts, ∀ c ∈ t.courses, ∃ o, get_course catalog c = some o ∧
        pattern_allows o.pattern t.isSpring t.year = true) ∧
      (∀ i j : Nat, ∀ hi : i < ts.length, ∀ hj : j < ts.length, ∀ X Y : String,
        X ∈ (ts.get ⟨i, hi⟩).courses → Y ∈ (ts.get ⟨j, hj⟩).courses →
        Y ∈ prereq_map catalog req0 X → j < i) := by
  intro fuel
  induction fuel with
  | zero =>
    intro st ts _ h
    simp [scheduleLoop] at h
  | succ fuel ih =>
    intro st ts inv h
    rw [scheduleLoop] at h
    by_cases hrem : st.remaining = ∅
    · rw [if_pos hrem] at h
      have hts : ts = [] := by
        have := Option.some.inj h
        exact (Except.ok.inj this).symm
      subst hts
      refine ⟨⟨by simp [hrem], by simp⟩, by simp, ?_⟩
      intro i j hi hj
      simp at hi
    · rw [if_neg hrem] at h
      simp only at h
      set offered := (sortCodes st.avail).filter (fun course =>
        match get_course catalog course with
        | some course_obj => pattern_allows course_obj.pattern st.isSpring st.year
        | none => false) with hofferedDef
      set st1 := offered.foldl (fun s course => processOne catalog req0 course s) st with hst1
      by_cases hguard : st1.avail = ∅ ∧ st1.remaining ≠ ∅
      · rw [if_pos hguard] at h
        cases h
      · rw [if_neg hguard] at h
        -- properties of offered
        have hoffNodup : offered.Nodup := (sortCodes_nodup st.avail).filter _
        have hoffAvail : ∀ x ∈ offered, x ∈ st.avail := by
          intro x hx
          exact mem_sortCodes.mp (List.mem_filter.mp hx).1
        have hoffPat : ∀ x ∈ offered, ∃ o, get_course catalog x = some o ∧
            pattern_allows o.pattern st.isSpring st.year = true := by
          intro x hx
          have hfil := (List.mem_filter.mp hx).2
          cases hgc : get_course catalog x with
          | none => rw [hgc] at hfil; simp at hfil
          | some o =>
            rw [hgc] at hfil
            exact ⟨o, rfl, hfil⟩
        have hoffSubR : offered.toFinset ⊆ st.remaining := by
          intro x hx
          have := hoffAvail x (List.mem_toFinset.mp hx)
          rw [inv.avail_eq] at this
          exact (Finset.mem_filter.mp this).1
        rcases foldBatch_inv offered st inv hoffNodup hoffAvail with
          ⟨inv1, hrem1, _, _⟩
        have inv1' : SchedInv catalog req0 (advanceTerm st1) := schedInv_advanceTerm inv1
        -- analyze the recursive call
        cases hrec : scheduleLoop catalog req0 fuel (advanceTerm st1) with
        | none => rw [hrec] at h; cases h
        | some res =>
          cases res with
          | error e => rw [hrec] at h; cases h
          | ok ts0 =>
            rw [hrec] at h
            have hts : ts = (if offered.isEmpty then ts0
                else { isSpring := st.isSpring, year := st.year, courses := offered } :: ts0) := by
              have := Option.some.inj h
              exact (Except.ok.inj this).symm
            rcases ih (advanceTerm st1) ts0 inv1' hrec with ⟨⟨hcov0, hnd0⟩, hpat0, hord0⟩
            rw [advanceTerm_remaining] at hcov0
            have hrem1' : st1.remaining = st.remaining \ offered.toFinset := by
              rw [hst1]
              exact hrem1
            by_cases hoffEmpty : offered.isEmpty
            · -- no term scheduled: st1 = st
              have hoffNil : offered = [] := List.isEmpty_iff.mp hoffEmpty
              rw [if_pos hoffEmpty] at hts
              subst hts
              rw [hrem1', hoffNil] at hcov0
              simp at hcov0
              exact ⟨⟨hcov0, hnd0⟩, hpat0, hord0⟩
            · rw [if_neg hoffEmpty] at hts
              subst hts
              rw [hrem1'] at hcov0
              constructor
              · constructor
                · -- coverage
                  simp only [List.map_cons, List.flatten_cons, List.toFinset_append]
                  rw [hcov0]
                  exact Finset.union_sdiff_of_subset hoffSubR
                · -- nodup
                  simp only [List.map_cons, List.flatten_cons]
                  rw [List.nodup_append]
                  refine ⟨hoffNodup, hnd0, ?_⟩
                  intro x hx hx0
                  have : x ∈ st.remaining \ offered.toFinset := by
                    rw [← hcov0]
                    exact List.mem_toFinset.mpr hx0
                  exact (Finset.mem_sdiff.mp this).2 (List.mem_toFinset.mpr hx)
              constructor
              · -- pattern
                intro t ht c hc
                rcases List.mem_cons.mp ht with h1 | h1
                · subst h1
                  exact hoffPat c hc
                · exact hpat0 t h1 c hc
              · -- order
                intro i j hi hj X Y hX hY hprereq
                match i, hi with
                | 0, hi =>
                  -- X in the first term: Y cannot be anywhere in ts
                  exfalso
                  have hXav : X ∈ st.avail := hoffAvail X (by simpa using hX)
                  have hXfree : prereq_map catalog req0 X ∩ st.remaining = ∅ := by
                    rw [inv.avail_eq] at hXav
                    exact (Finset.mem_filter.mp hXav).2
                  have hYrem : Y ∈ st.remaining := by
                    match j, hj with
                    | 0, hj =>
                      have : Y ∈ offered := by simpa using hY
                      exact hoffSubR (List.mem_toFinset.mpr this)
                    | j + 1, hj =>
                      have hYj : Y ∈ (ts0.get ⟨j, by simpa using hj⟩).courses := by
                        simpa using hY
                      have : Y ∈ (ts0.map Term.courses).flatten := by
                        apply List.mem_flatten.mpr
                        refine ⟨(ts0.get ⟨j, by simpa using hj⟩).courses, ?_, hYj⟩
                        apply List.mem_map.mpr
                        exact ⟨ts0.get ⟨j, by simpa using hj⟩, List.get_mem _ _ _, rfl⟩
                      have := List.mem_toFinset.mpr this
                      rw [hcov0] at this
                      exact (Finset.mem_sdiff.mp this).1
                  have : Y ∈ prereq_map catalog req0 X ∩ st.remaining :=
                    Finset.mem_inter.mpr ⟨hprereq, hYrem⟩
                  rw [hXfree] at this
                  exact absurd this (Finset.not_mem_empty Y)
                | i + 1, hi =>
                  match j, hj with
                  | 0, hj => exact Nat.succ_pos i
                  | j + 1, hj =>
                    have hXi : X ∈ (ts0.get ⟨i, by simpa using hi⟩).courses := by
                      simpa using hX
                    have hYj : Y ∈ (ts0.get ⟨j, by simpa using hj⟩).courses := by
                      simpa using hY
                    have := hord0 i j (by simpa using hi) (by simpa using hj) X Y hXi hYj hprereq
                    omega

theorem schedInv_init (catalog : List ParsedCourse) (req0 : Finset String) :
    SchedInv catalog req0
      { year := 0, isSpring := false,
        deg := fun course => (prereq_map catalog req0 course).card,
        avail := req0.filter (fun course => (prereq_map catalog req0 course).card = 0),
        remaining := req0 } := by
  refine ⟨?_, ?_, ?_, ?_⟩
  · apply Finset.filter_congr
    intro c _
    have hsub : prereq_map catalog req0 c ∩ req0 = prereq_map catalog req0 c :=
      Finset.inter_eq_left.mpr (prereq_map_subset catalog req0 c)
    simp only [hsub]
    exact ⟨fun h => Finset.card_eq_zero.mp (by simpa using h),
      fun h => by simp [h]⟩
  · intro d _
    have hsub : prereq_map catalog req0 d ∩ req0 = prereq_map catalog req0 d :=
      Finset.inter_eq_left.mpr (prereq_map_subset catalog req0 d)
    simp [hsub]
  · intro d hd hnot
    exact absurd hd hnot
  · exact Finset.Subset.refl _

theorem schedule_courses_ok_props (fuel : Nat) (catalog : List ParsedCourse)
    (all_required : Finset String) (config : Config) (ts : List Term)
    (h : schedule_courses fuel catalog all_required config = some (.ok ts)) :
    ((ts.map Term.courses).flatten.toFinset =
        all_required \ config.completed_course_work.toFinset ∧
      (ts.map Term.courses).flatten.Nodup) ∧
    (∀ t ∈ ts, ∀ c ∈ t.courses, ∃ o, get_course catalog c = some o ∧
      pattern_allows o.pattern t.isSpring t.year = true) ∧
    (∀ i j : Nat, ∀ hi : i < ts.length, ∀ hj : j < ts.length, ∀ X Y : String,
      X ∈ (ts.get ⟨i, hi⟩).courses → Y ∈ (ts.get ⟨j, hj⟩).courses →
      Y ∈ prereq_map catalog (all_required \ config.completed_course_work.toFinset) X →
      j < i) := by
  rw [schedule_courses] at h
  by_cases hmiss : ((all_required \ config.completed_course_work.toFinset).filter
      (fun course => (get_course catalog course).isNone)).Nonempty
  · rw [if_pos hmiss] at h
    cases h
  · rw [if_neg hmiss] at h
    have hinv := schedInv_init catalog (all_required \ config.completed_course_work.toFinset)
    have hinv' : SchedInv catalog (all_required \ config.completed_course_work.toFinset)
        { year := config.start_year, isSpring := config.start_term == "spring",
          deg := fun course => (prereq_map catalog
            (all_required \ config.completed_course_work.toFinset) course).card,
          avail := (all_required \ config.completed_course_work.toFinset).filter
            (fun course => (prereq_map catalog
              (all_required \ config.completed_course_work.toFinset) course).card = 0),
          remaining := all_required \ config.completed_course_work.toFinset } :=
      ⟨hinv.avail_eq, hinv.deg_eq, hinv.done_free, hinv.rem_sub⟩
    rcases scheduleLoop_ok_props fuel _ ts hinv' h with ⟨hcov, hpat, hord⟩
    exact ⟨hcov, hpat, hord⟩

/-- C10 (confirmed): whenever every course of the required set exists in the
catalog and `schedule_courses` returns normally, the emitted semesters
partition the required set minus the student's completed courses: each such
course appears in exactly one semester's list, no course twice, nothing
extraneous.  (The catalog hypothesis is in fact already forced by a normal
return, since a missing course raises `KeyError`.) -/
theorem claim10_partition (fuel : Nat) (catalog : List ParsedCourse)
    (all_required : Finset String) (config : Config) (ts : List Term)
    (hcat : ∀ c ∈ all_required, (get_course catalog c).isSome)
    (h : schedule_courses fuel catalog all_required config = some (.ok ts)) :
    (ts.map Term.courses).flatten.toFinset =
      all_required \ config.completed_course_work.toFinset ∧
    (ts.map Term.courses).flatten.Nodup :=
  (schedule_courses_ok_props fuel catalog all_required config ts h).1

/-- Witness for C10 at the concrete two-course catalog. -/
theorem claim10_witness :
    (([{ isSpring := false, year := 2025, courses := ["A"] },
       { isSpring := true, year := 2026, courses := ["B"] }].map Term.courses).flatten.toFinset =
      ({"A", "B"} : Finset String) \ configFall2025.completed_course_work.toFinset ∧
    ([{ isSpring := false, year := 2025, courses := ["A"] },
      { isSpring := true, year := 2026, courses := ["B"] }].map
        Term.courses).flatten.Nodup) :=
  claim10_partition 6 catalogAB {"A", "B"} configFall2025 _ (by decide) (by decide)

/-- C1 (confirmed): if the pattern-aware scheduler returns a schedule, then
for every `REQUIRES` edge from a scheduled course `X` to a prerequisite `Y`
within the required set (the dependency graph `prereq_map`), the term of `Y`
strictly precedes the term of `X` in the returned chronological list. -/
theorem claim1_order (fuel : Nat) (catalog : List ParsedCourse)
    (all_required : Finset String) (config : Config) (ts : List Term)
    (h : schedule_courses fuel catalog all_required config = some (.ok ts)) :
    ∀ i j : Nat, ∀ hi : i < ts.length, ∀ hj : j < ts.length, ∀ X Y : String,
      X ∈ (ts.get ⟨i, hi⟩).courses → Y ∈ (ts.get ⟨j, hj⟩).courses →
      Y ∈ prereq_map catalog (all_required \ config.completed_course_work.toFinset) X →
      j < i :=
  (schedule_courses_ok_props fuel catalog all_required config ts h).2.2

/-- Witness for C1: in the concrete run, `B` (requiring `A`) lands in term 1
and `A` in term 0, and the theorem yields `0 < 1`. -/
theorem claim1_witness : (0 : Nat) < 1 :=
  claim1_order 6 catalogAB {"A", "B"} configFall2025
    [{ isSpring := false, year := 2025, courses := ["A"] },
     { isSpring := true, year := 2026, courses := ["B"] }]
    (by decide) 1 0 (by decide) (by decide) "B" "A" (by decide) (by decide) (by decide)

/-- C6 (confirmed): no term of a returned schedule contains a course whose
offering pattern (per the `pattern_allows` table of §4.4) disallows that
term's `(isSpring, year)` pair; every scheduled course is moreover present
in the catalog. -/
theorem claim6_patterns (fuel : Nat) (catalog : List ParsedCourse)
    (all_required : Finset String) (config : Config) (ts : List Term)
    (h : schedule_courses fuel catalog all_required config = some (.ok ts)) :
    ∀ t ∈ ts, ∀ c ∈ t.courses, ∃ o, get_course catalog c = some o ∧
      pattern_allows o.pattern t.isSpring t.year = true :=
  (schedule_courses_ok_props fuel catalog all_required config ts h).2.1

/-- Witness for C6: the spring-only course `B` is scheduled spring 2026. -/
theorem claim6_witness :
    ∃ o, get_course catalogAB "B" = some o ∧ pattern_allows o.pattern true 2026 = true :=
  claim6_patterns 6 catalogAB {"A", "B"} configFall2025
    [{ isSpring := false, year := 2025, courses := ["A"] },
     { isSpring := true, year := 2026, courses := ["B"] }]
    (by decide) { isSpring := true, year := 2026, courses := ["B"] } (by decide) "B" (by decide)

theorem extract_simplify_subset (catalog : List ParsedCourse) (g : ℚ)
    (pl : List Placement) (comp : List String) (lvl : LevelName) :
    ∀ r : Req, extract_course_codes (simplify_requirement catalog g pl comp lvl r) ⊆
      extract_course_codes r := by
  intro r
  induction r using Req.recMem with
  | hempty => intro x hx; exact hx
  | hperm s => intro x hx; exact hx
  | hother s =>
    intro x hx
    simp [simplify_requirement, extract_course_codes] at hx
  | hlevel l =>
    intro x hx
    rw [simplify_requirement] at hx
    split at hx
    · simp [extract_course_codes] at hx
    · exact hx
  | hgpa gg =>
    intro x hx
    rw [simplify_requirement] at hx
    split at hx
    · simp [extract_course_codes] at hx
    · exact hx
  | hplac s l =>
    intro x hx
    rw [simplify_requirement] at hx
    split at hx
    · simp [extract_course_codes] at hx
    · exact hx
  | hcourse code timing =>
    intro x hx
    rw [simplify_requirement] at hx
    split at hx
    · simp [extract_course_codes] at hx
    · split at hx
      · simp [extract_course_codes] at hx
      · exact hx
  | hand rs ih =>
    intro x hx
    rw [simplify_requirement] at hx
    split at hx
    · simp [extract_course_codes] at hx
    · rw [extract_course_codes, extract_children_eq_list, ReqList.toList_ofList] at hx
      rcases mem_extract_list.mp hx with ⟨s, hs, hxs⟩
      rcases List.mem_filter.mp hs with ⟨hsmem, _⟩
      rw [simplify_children_eq_map] at hsmem
      rcases List.mem_map.mp hsmem with ⟨r0, hr0, rfl⟩
      rw [extract_course_codes, extract_children_eq_list]
      exact mem_extract_list.mpr ⟨r0, hr0, ih r0 hr0 hxs⟩
  | hor rs ih =>
    intro x hx
    rw [simplify_requirement] at hx
    by_cases hany : (simplify_children catalog g pl comp lvl rs).any Req.isNone
    · simp [hany, extract_course_codes] at hx
    · have hany2 : (simplify_children catalog g pl comp lvl rs).any Req.isNone = false := by
        simpa using hany
      rw [hany2] at hx
      simp only [Bool.false_eq_true, if_false] at hx
      by_cases he : (simplify_children catalog g pl comp lvl rs).isEmpty
      · simp [he, extract_course_codes] at hx
      · rw [if_neg he] at hx
        rw [extract_course_codes, extract_children_eq_list, ReqList.toList_ofList] at hx
        rcases mem_extract_list.mp hx with ⟨s, hs, hxs⟩
        rw [simplify_children_eq_map] at hs
        rcases List.mem_map.mp hs with ⟨r0, hr0, rfl⟩
        rw [extract_course_codes, extract_children_eq_list]
        exact mem_extract_list.mpr ⟨r0, hr0, ih r0 hr0 hxs⟩
  | hcf c rs ih =>
    intro x hx
    rw [simplify_requirement] at hx
    split at hx
    · simp [extract_course_codes] at hx
    · exact hx
  | hcn n rs ih =>
    intro x hx
    rw [simplify_requirement] at hx
    split at hx
    · simp [extract_course_codes] at hx
    · exact hx

def catalogCodes (catalog : List ParsedCourse) : Finset String :=
  catalog.foldr (fun pc acc => extract_course_codes_list pc.requisite ∪ acc) ∅

theorem subset_catalogCodes {catalog : List ParsedCourse} {pc : ParsedCourse}
    (h : pc ∈ catalog) : extract_course_codes_list pc.requisite ⊆ catalogCodes catalog := by
  induction catalog with
  | nil => cases h
  | cons q qs ih =>
    rcases List.mem_cons.mp h with h1 | h1
    · subst h1
      exact Finset.subset_union_left
    · exact (ih h1).trans Finset.subset_union_right

/-- The codes contributed by processing one course of the expansion loop:
simplify the course's prerequisite tree (wrapped in `And`) against the
student state and extract every remaining course code; a course missing
from the catalog contributes nothing (it is only logged). -/
def discoverOne (catalog : List ParsedCourse) (config : Config)
    (course_code : String) : Finset String :=
  match get_course catalog course_code with
  | none => ∅
  | some parsed_course =>
      extract_course_codes
        (simplify_requirement catalog config.gpa config.placements
          config.completed_course_work config.level
          (.andReq (.ofList parsed_course.requisite)))

/-- One iteration of the fixed-point expansion loop of `main`: process every
not-yet-processed course of `new_courses`, union the discovered codes, and
compute the next `new_courses` as the codes not already in `all_required`. -/
def expandStep (catalog : List ParsedCourse) (config : Config)
    (processed all_required new_courses : Finset String) :
    Finset String × Finset String × Finset String :=
  let newly_discovered := (new_courses \ processed).biUnion (discoverOne catalog config)
  (processed ∪ new_courses, all_required ∪ newly_discovered,
    newly_discovered \ all_required)

/-- The `while new_courses:` loop of `main` (fuelled). -/
def expandLoop (catalog : List ParsedCourse) (config : Config) :
    Nat → Finset String → Finset String → Finset String → Option (Finset String)
  | 0, _, _, _ => none
  | fuel + 1, processed, all_required, new_courses =>
    if new_courses = ∅ then some all_required
    else
      expandLoop catalog config fuel
        (expandStep catalog config processed all_required new_courses).1
        (expandStep catalog config processed all_required new_courses).2.1
        (expandStep catalog config processed all_required new_courses).2.2

theorem discoverOne_subset (catalog : List ParsedCourse) (config : Config)
    (c : String) : discoverOne catalog config c ⊆ catalogCodes catalog := by
  rw [discoverOne]
  cases hgc : get_course catalog c with
  | none => simp
  | some pc =>
    intro x hx
    have hsub := extract_simplify_subset catalog config.gpa config.placements
      config.completed_course_work config.level (.andReq (.ofList pc.requisite))
    have hx2 := hsub hx
    rw [extract_course_codes, extract_children_eq_list, ReqList.toList_ofList] at hx2
    exact subset_catalogCodes (List.mem_of_find?_eq_some hgc) hx2

theorem discovered_subset_catalogCodes (catalog : List ParsedCourse) (config : Config)
    (s : Finset String) :
    s.biUnion (discoverOne catalog config) ⊆ catalogCodes catalog := by
  intro x hx
  rcases Finset.mem_biUnion.mp hx with ⟨c, _, hxc⟩
  exact discoverOne_subset catalog config c hxc

theorem expandLoop_total (catalog : List ParsedCourse) (config : Config)
    (U : Finset String) (hU : catalogCodes catalog ⊆ U) :
    ∀ fuel processed all_required new_courses, all_required ⊆ U →
      (U \ all_required).card + 2 ≤ fuel →
      (expandLoop catalog config fuel processed all_required new_courses).isSome := by
  intro fuel
  induction fuel with
  | zero =>
    intro p a n _ hf
    omega
  | succ fuel ih =>
    intro p a n ha hf
    rw [expandLoop]
    by_cases hn : n = ∅
    · rw [if_pos hn]
      rfl
    · rw [if_neg hn]
      by_cases hnew : (expandStep catalog config p a n).2.2 = ∅
      · cases fuel with
        | zero => omega
        | succ fuel2 =>
          rw [hnew, expandLoop, if_pos rfl]
          rfl
      · apply ih
        · show a ∪ _ ⊆ U
          apply Finset.union_subset ha
          exact (discovered_subset_catalogCodes catalog config (n \ p)).trans hU
        · rcases Finset.nonempty_iff_ne_empty.mpr hnew with ⟨x, hx⟩
          rcases Finset.mem_sdiff.mp hx with ⟨hxdisc, hxa⟩
          have hxU : x ∈ U :=
            hU (discovered_subset_catalogCodes catalog config (n \ p) hxdisc)
          have hstrict :
              (U \ (a ∪ (n \ p).biUnion (discoverOne catalog config))).card <
                (U \ a).card := by
            apply Finset.card_lt_card
            constructor
            · intro y hy
              rcases Finset.mem_sdiff.mp hy with ⟨hy1, hy2⟩
              exact Finset.mem_sdiff.mpr ⟨hy1, fun hya => hy2 (Finset.mem_union_left _ hya)⟩
            · intro hcontra
              have hxin : x ∈ U \ a := Finset.mem_sdiff.mpr ⟨hxU, hxa⟩
              have hx2 := hcontra hxin
              rcases Finset.mem_sdiff.mp hx2 with ⟨_, hnot⟩
              exact hnot (Finset.mem_union_right _ hxdisc)
          have : (expandStep catalog config p a n).2.1 =
              a ∪ (n \ p).biUnion (discoverOne catalog config) := rfl
          rw [this]
          omega

/-- C9 (confirmed): the fixed-point expansion terminates.  With fuel equal
to the number of course codes mentioned anywhere (the initial set plus every
code in any catalog requisite tree) plus two, the loop returns; moreover
every iteration's newly discovered `new_courses` are disjoint from the
previous `all_required` (each iteration either adds previously unseen codes
or is the last, since an empty `new_courses` ends the loop), and `processed`
accumulates each batch exactly once. -/
theorem claim9_expansion_terminates (catalog : List ParsedCourse) (config : Config)
    (initial : Finset String) :
    (expandLoop catalog config ((initial ∪ catalogCodes catalog).card + 2)
      ∅ initial initial).isSome = true ∧
    ∀ processed all_required new_courses : Finset String,
      (expandStep catalog config processed all_required new_courses).2.2 ∩
        all_required = ∅ ∧
      (expandStep catalog config processed all_required new_courses).2.1 =
        all_required ∪ (expandStep catalog config processed all_required new_courses).2.2 ∧
      (expandStep catalog config processed all_required new_courses).1 =
        processed ∪ new_courses := by
  constructor
  · apply expandLoop_total catalog config (initial ∪ catalogCodes catalog)
      Finset.subset_union_right _ ∅ initial initial Finset.subset_union_left
    have : (initial ∪ catalogCodes catalog) \ initial ⊆ initial ∪ catalogCodes catalog :=
      Finset.sdiff_subset
    have := Finset.card_le_card this
    omega
  · intro p a n
    refine ⟨Finset.sdiff_inter_self _ _, ?_, rfl⟩
    have : a ∪ ((n \ p).biUnion (discoverOne catalog config) \ a) =
        a ∪ (n \ p).biUnion (discoverOne catalog config) :=
      Finset.union_sdiff_self_eq_union
    exact this.symm

/-- `class CourseGraph` of `src/create_schedule.py`: adjacency maps from a
course code to its `REQUIRES` / `CONCURRENT` neighbour sets (`get_prerequisites`
and `get_concurrent_requirements` return ∅ for unknown codes, like the
source). -/
structure CourseGraph where
  requires : String → Finset String
  concurrent : String → Finset String

/-- Colors/state of `topological_sort` (`visited` dict, output list and
cycle flag): `gray` are the "visiting" (1) nodes, `black` the "visited" (2)
nodes, every other key is unvisited (0). -/
structure TsState where
  gray : Finset String
  black : Finset String
  order : List String
  flag : Bool

/-- Sequential application of a visiting step over a list of prerequisites
(the `for prereq in graph.get_prerequisites(course)` loop of `dfs`). -/
def dfsListAux (step : String → TsState → Option TsState) :
    List String → TsState → Option TsState
  | [], s => some s
  | c :: cs, s =>
    match step c s with
    | none => none
    | some s1 => dfsListAux step cs s1

/-- The recursive `dfs` of `topological_sort`: a gray node signals a cycle,
a black node returns, a white node is grayed, its in-key prerequisites are
visited, then it is blackened and appended to the output.  The fuel bounds
the recursion depth; `keys.card + 1` is enough (proved below). -/
def dfs (g : CourseGraph) (keys : Finset String) :
    Nat → String → TsState → Option TsState
  | 0, _, _ => none
  | fuel + 1, course, s =>
    if course ∈ s.gray then some { s with flag := true }
    else if course ∈ s.black then some s
    else
      match dfsListAux (dfs g keys fuel)
        ((sortCodes (g.requires course)).filter (fun p => p ∈ keys))
        { s with gray := insert course s.gray } with
      | none => none
      | some s2 => some { s2 with
          gray := s2.gray.erase course
          black := insert course s2.black
          order := s2.order ++ [course] }

/-- The top loop of `topological_sort`: start a depth-first walk from every
still-unvisited required course, in sorted order. -/
def topoLoop (g : CourseGraph) (keys : Finset String) (fuel : Nat) :
    List String → TsState → Option TsState
  | [], s => some s
  | c :: cs, s =>
    if c ∉ s.gray ∧ c ∉ s.black then
      match dfs g keys fuel c s with
      | none => none
      | some s1 => topoLoop g keys fuel cs s1
    else topoLoop g keys fuel cs s

/-- `topological_sort(graph, required_courses)`: DFS-based topological sort
with three-color cycle detection; on a detected cycle it returns
`([], True)`.  (`none` would mean the internal depth bound was exhausted,
which cannot happen at this fuel.) -/
def topological_sort (g : CourseGraph) (required_courses : List String) :
    Option (List String × Bool) :=
  let keys := required_courses.toFinset
  match topoLoop g keys (keys.card + 1) (sortCodes keys)
    { gray := ∅, black := ∅, order := [], flag := false } with
  | none => none
  | some s => some (if s.flag then ([], true) else (s.order, false))

/-- The catalog node data consulted by `generate_semesters`
(`course_by_code[code]["min_credits"]`; the source's string-to-int fallback
conversions are folded into the stored number). -/
structure GNode where
  min_credits : Nat
deriving DecidableEq, Repr

/-- `check_prerequisites_satisfied`: every `REQUIRES` prerequisite must be in
the completed set (CONCURRENT, level and placement are not enforced). -/
def check_prerequisites_satisfied (course_code : String) (g : CourseGraph)
    (completed_courses : Finset String) : Bool :=
  decide (g.requires course_code ⊆ completed_courses)

/-- The inner `for course_code in sorted(courses_to_schedule)` pass of
`generate_semesters`: accumulate `(semester_courses, semester_credits,
courses_to_schedule)`. -/
def genPass (g : CourseGraph) (course_by_code : String → Option GNode)
    (credits_per_semester : Nat) (completed : Finset String) :
    List String → List String × Nat × Finset String →
      List String × Nat × Finset String
  | [], acc => acc
  | course_code :: rest, (semester_courses, semester_credits, to_schedule) =>
    match course_by_code course_code with
    | none =>
        genPass g course_by_code credits_per_semester completed rest
          (semester_courses, semester_credits, to_schedule.erase course_code)
    | some node =>
        if check_prerequisites_satisfied course_code g completed then
          if semester_credits + node.min_credits ≤ credits_per_semester then
            genPass g course_by_code credits_per_semester completed rest
              (semester_courses ++ [course_code],
                semester_credits + node.min_credits,
                to_schedule.erase course_code)
          else
            genPass g course_by_code credits_per_semester completed rest
              (semester_courses, semester_credits, to_schedule)
        else
          genPass g course_by_code credits_per_semester completed rest
            (semester_courses, semester_credits, to_schedule)

/-- The `while courses_to_schedule and iteration < max_iterations` loop of
`generate_semesters` (at most 20 iterations). -/
def genLoop (g : CourseGraph) (course_by_code : String → Option GNode)
    (credits_per_semester : Nat) :
    Nat → Finset String → Finset String → Nat → Nat → Bool → List Term
  | 0, _, _, _, _, _ => []
  | iterations + 1, to_schedule, completed, _accumulated, year, is_spring =>
    if to_schedule = ∅ then []
    else
      match genPass g course_by_code credits_per_semester completed
        (sortCodes to_schedule) ([], 0, to_schedule) with
      | (semester_courses, semester_credits, to_schedule1) =>
        if semester_courses = [] then []
        else
          { isSpring := is_spring, year := year, courses := semester_courses } ::
            genLoop g course_by_code credits_per_semester iterations to_schedule1
              (completed ∪ semester_courses.toFinset)
              (_accumulated + semester_credits)
              (if is_spring then year else year + 1) (!is_spring)

/-- `generate_semesters(required_courses, graph, course_by_code,
credits_per_semester, start_year=2025, start_spring=True)`. -/
def generate_semesters (required_courses : List String) (g : CourseGraph)
    (course_by_code : String → Option GNode) (credits_per_semester : Nat)
    (start_year : Nat) (start_spring : Bool) : List Term :=
  genLoop g course_by_code credits_per_semester 20 required_courses.toFinset ∅ 0
    start_year start_spring

/-- The fatal error of phase 3.2. -/
inductive CycleErr where
  | cycleDetected
deriving DecidableEq, Repr

/-- Phases 3.2–4 of `main` in `src/create_schedule.py`: run
`topological_sort` first; on a detected cycle exit (no call to
`generate_semesters`, no semester produced), otherwise generate the
schedule. -/
def schedule_pipeline (g : CourseGraph) (required_courses : List String)
    (course_by_code : String → Option GNode) (credits_per_semester : Nat)
    (start_year : Nat) (start_spring : Bool) : Option (Except CycleErr (List Term)) :=
  match topological_sort g required_courses with
  | none => none
  | some (_, true) => some (.error .cycleDetected)
  | some (_, false) =>
      some (.ok (generate_semesters required_courses g course_by_code
        credits_per_semester start_year start_spring))

def gAB : CourseGraph :=
  { requires := fun c => if c = "A" then {"B"} else if c = "B" then {"A"} else ∅,
    concurrent := fun _ => ∅ }

def gChain : CourseGraph :=
  { requires := fun c => if c = "B" then {"A"} else ∅,
    concurrent := fun _ => ∅ }


/-- A `REQUIRES` edge of the dependency graph restricted to the required
set: `u` requires `v`, both in the set. -/
def ReqEdge (g : CourseGraph) (keys : Finset String) (u v : String) : Prop :=
  u ∈ keys ∧ v ∈ keys ∧ v ∈ g.requires u

theorem mem_nbrs {g : CourseGraph} {keys : Finset String} {c p : String} :
    p ∈ (sortCodes (g.requires c)).filter (fun q => q ∈ keys) ↔
      p ∈ g.requires c ∧ p ∈ keys := by
  rw [List.mem_filter]
  constructor
  · rintro ⟨h1, h2⟩
    exact ⟨mem_sortCodes.mp h1, by simpa using h2⟩
  · rintro ⟨h1, h2⟩
    exact ⟨mem_sortCodes.mpr h1, by simpa using h2⟩

/-- Invariant of the DFS state: the output list has no duplicates, lists
exactly the black nodes, and (while no cycle has been flagged) every listed
node appears strictly after all its in-key prerequisites. -/
structure TsInv (g : CourseGraph) (keys : Finset String) (s : TsState) : Prop where
  nodup : s.order.Nodup
  order_black : ∀ u, u ∈ s.order ↔ u ∈ s.black
  ordered : s.flag = false → ∀ u ∈ s.order, ∀ v, ReqEdge g keys u v →
    v ∈ s.order ∧ s.order.indexOf v < s.order.indexOf u

/-- How one DFS call extends the state. -/
structure TsExt (s s' : TsState) : Prop where
  black_mono : s.black ⊆ s'.black
  gray_keep : ∀ x ∈ s.gray, x ∈ s'.gray
  gray_black_stable : ∀ x ∈ s.gray, (x ∈ s'.black ↔ x ∈ s.black)
  flag_mono : s.flag = true → s'.flag = true
  order_ext : ∃ L, s'.order = s.order ++ L

theorem TsExt.rfl' (s : TsState) : TsExt s s :=
  ⟨Finset.Subset.refl _, fun _ h => h, fun _ _ => Iff.rfl, fun h => h, [], by simp⟩

theorem TsExt.comp {s1 s2 s3 : TsState} (h12 : TsExt s1 s2) (h23 : TsExt s2 s3) :
    TsExt s1 s3 := by
  refine ⟨h12.black_mono.trans h23.black_mono,
    fun x hx => h23.gray_keep x (h12.gray_keep x hx),
    fun x hx => (h23.gray_black_stable x (h12.gray_keep x hx)).trans
      (h12.gray_black_stable x hx),
    fun h => h23.flag_mono (h12.flag_mono h), ?_⟩
  rcases h12.order_ext with ⟨L1, hL1⟩
  rcases h23.order_ext with ⟨L2, hL2⟩
  exact ⟨L1 ++ L2, by rw [hL2, hL1, List.append_assoc]⟩

theorem flag_false_back {s s' : TsState} (h : TsExt s s') (hf : s'.flag = false) :
    s.flag = false := by
  cases hsf : s.flag with
  | false => rfl
  | true => rw [h.flag_mono hsf] at hf; cases hf

theorem dfsList_spec (g : CourseGraph) (keys : Finset String) (fuel : Nat)
    (hdfs : ∀ c s s', c ∈ keys → dfs g keys fuel c s = some s' → TsInv g keys s →
      TsInv g keys s' ∧ TsExt s s' ∧
        (s'.flag = false → c ∈ s'.black ∧ s'.gray = s.gray)) :
    ∀ cs s s', (∀ c ∈ cs, c ∈ keys) →
      dfsListAux (dfs g keys fuel) cs s = some s' → TsInv g keys s →
      TsInv g keys s' ∧ TsExt s s' ∧
        (s'.flag = false → (∀ c ∈ cs, c ∈ s'.black) ∧ s'.gray = s.gray) := by
  intro cs
  induction cs with
  | nil =>
    intro s s' _ heq inv
    rw [dfsListAux] at heq
    cases heq
    exact ⟨inv, TsExt.rfl' s, fun _ => ⟨by simp, rfl⟩⟩
  | cons c cs ih =>
    intro s s' hk heq inv
    rw [dfsListAux] at heq
    cases hd : dfs g keys fuel c s with
    | none => rw [hd] at heq; cases heq
    | some s1 =>
      rw [hd] at heq
      rcases hdfs c s s1 (hk c (by simp)) hd inv with ⟨inv1, ext1, fin1⟩
      rcases ih s1 s' (fun x hx => hk x (by simp [hx])) heq inv1 with ⟨inv2, ext2, fin2⟩
      refine ⟨inv2, ext1.comp ext2, fun hf => ?_⟩
      have hf1 : s1.flag = false := flag_false_back ext2 hf
      rcases fin1 hf1 with ⟨hc, hg1⟩
      rcases fin2 hf with ⟨hcs, hg2⟩
      refine ⟨fun x hx => ?_, hg2.trans hg1⟩
      rcases List.mem_cons.mp hx with h | h
      · exact h ▸ ext2.black_mono hc
      · exact hcs x h

theorem dfs_spec (g : CourseGraph) (keys : Finset String) :
    ∀ fuel : Nat, ∀ c s s', c ∈ keys → dfs g keys fuel c s = some s' →
      TsInv g keys s →
      TsInv g keys s' ∧ TsExt s s' ∧
        (s'.flag = false → c ∈ s'.black ∧ s'.gray = s.gray) := by
  intro fuel
  induction fuel with
  | zero =>
    intro c s s' _ heq _
    rw [dfs] at heq
    cases heq
  | succ fuel ih =>
    intro c s s' hc heq inv
    rw [dfs] at heq
    by_cases hgray : c ∈ s.gray
    · rw [if_pos hgray] at heq
      cases heq
      refine ⟨⟨inv.nodup, inv.order_black, fun hf => ?_⟩,
        ⟨Finset.Subset.refl _, fun x h => h, fun x _ => Iff.rfl, fun _ => rfl, [], by simp⟩,
        fun hf => ?_⟩ <;> cases hf
    · rw [if_neg hgray] at heq
      by_cases hblack : c ∈ s.black
      · rw [if_pos hblack] at heq
        cases heq
        exact ⟨inv, TsExt.rfl' s, fun _ => ⟨hblack, rfl⟩⟩
      · rw [if_neg hblack] at heq
        cases hlst : dfsListAux (dfs g keys fuel)
            ((sortCodes (g.requires c)).filter (fun p => p ∈ keys))
            { s with gray := insert c s.gray } with
        | none => rw [hlst] at heq; cases heq
        | some s2 =>
          rw [hlst] at heq
          cases heq
          have inv1 : TsInv g keys { s with gray := insert c s.gray } :=
            ⟨inv.nodup, inv.order_black, inv.ordered⟩
          rcases dfsList_spec g keys fuel ih _ _ s2
            (fun p hp => (mem_nbrs.mp hp).2) hlst inv1 with ⟨inv2, ext12, fin2⟩
          have hcnb2 : c ∉ s2.black := by
            have hstable := ext12.gray_black_stable c (Finset.mem_insert_self c s.gray)
            intro hmem
            exact hblack (hstable.mp hmem)
          have hcno2 : c ∉ s2.order := fun h => hcnb2 ((inv2.order_black c).mp h)
          refine ⟨⟨?_, ?_, ?_⟩, ⟨?_, ?_, ?_, ?_, ?_⟩, fun hf => ?_⟩
          · -- nodup
            rw [List.nodup_append]
            exact ⟨inv2.nodup, by simp, fun x hx => by
              simp only [List.mem_singleton]
              intro hxc
              exact hcno2 (hxc ▸ hx)⟩
          · -- order ↔ black
            intro u
            simp only [List.mem_append, List.mem_singleton, Finset.mem_insert]
            rw [inv2.order_black u]
            tauto
          · -- ordered
            intro hf u hu v hedge
            have hf2 : s2.flag = false := hf
            rcases List.mem_append.mp hu with hmem | hmem
            · rcases inv2.ordered hf2 u hmem v hedge with ⟨hv2, hidx⟩
              refine ⟨List.mem_append.mpr (Or.inl hv2), ?_⟩
              rw [List.indexOf_append_of_mem hv2, List.indexOf_append_of_mem hmem]
              exact hidx
            · have huc : u = c := by simpa using hmem
              subst huc
              have hvnbrs : v ∈ (sortCodes (g.requires u)).filter (fun p => p ∈ keys) :=
                mem_nbrs.mpr ⟨hedge.2.2, hedge.2.1⟩
              have hv2 : v ∈ s2.black := (fin2 hf2).1 v hvnbrs
              have hvord : v ∈ s2.order := (inv2.order_black v).mpr hv2
              refine ⟨List.mem_append.mpr (Or.inl hvord), ?_⟩
              rw [List.indexOf_append_of_mem hvord,
                List.indexOf_append_of_not_mem hcno2]
              have h1 : s2.order.indexOf v < s2.order.length :=
                List.indexOf_lt_length.mpr hvord
              simp only [List.indexOf_cons_self]
              omega
          · -- black_mono
            intro x hx
            exact Finset.mem_insert_of_mem (ext12.black_mono hx)
          · -- gray_keep
            intro x hx
            have hx1 : x ∈ insert c s.gray := Finset.mem_insert_of_mem hx
            have hx2 := ext12.gray_keep x hx1
            refine Finset.mem_erase.mpr ⟨fun hxe => hgray (hxe ▸ hx), hx2⟩
          · -- gray_black_stable
            intro x hx
            have hx1 : x ∈ insert c s.gray := Finset.mem_insert_of_mem hx
            have hxc : x ≠ c := fun h => hgray (h ▸ hx)
            simp only [Finset.mem_insert]
            rw [ext12.gray_black_stable x hx1]
            simp [hxc]
          · -- flag_mono
            intro hflag
            exact ext12.flag_mono hflag
          · -- order_ext
            rcases ext12.order_ext with ⟨L, hL⟩
            exact ⟨L ++ [c], by simp only [hL]; simp⟩
          · -- completion
            have hf2 : s2.flag = false := hf
            refine ⟨Finset.mem_insert_self c s2.black, ?_⟩
            have hg2 : s2.gray = insert c s.gray := (fin2 hf2).2
            simp only [hg2]
            exact Finset.erase_insert hgray

/-- The unvisited required courses. -/
def whiteSet (keys : Finset String) (s : TsState) : Finset String :=
  keys \ (s.gray ∪ s.black)

theorem dfsListAux_mono (step : String → TsState → Option TsState)
    (hstep : ∀ c s s', step c s = some s' → s.gray ∪ s.black ⊆ s'.gray ∪ s'.black) :
    ∀ cs s s', dfsListAux step cs s = some s' →
      s.gray ∪ s.black ⊆ s'.gray ∪ s'.black := by
  intro cs
  induction cs with
  | nil =>
    intro s s' heq
    rw [dfsListAux] at heq
    cases heq
    exact Finset.Subset.refl _
  | cons c cs ih =>
    intro s s' heq
    rw [dfsListAux] at heq
    cases hd : step c s with
    | none => rw [hd] at heq; cases heq
    | some s1 =>
      rw [hd] at heq
      exact (hstep c s s1 hd).trans (ih s1 s' heq)

theorem dfs_mono (g : CourseGraph) (keys : Finset String) :
    ∀ fuel c s s', dfs g keys fuel c s = some s' →
      s.gray ∪ s.black ⊆ s'.gray ∪ s'.black := by
  intro fuel
  induction fuel with
  | zero =>
    intro c s s' heq
    rw [dfs] at heq
    cases heq
  | succ fuel ih =>
    intro c s s' heq
    rw [dfs] at heq
    by_cases hgray : c ∈ s.gray
    · rw [if_pos hgray] at heq
      cases heq
      exact Finset.Subset.refl _
    · rw [if_neg hgray] at heq
      by_cases hblack : c ∈ s.black
      · rw [if_pos hblack] at heq
        cases heq
        exact Finset.Subset.refl _
      · rw [if_neg hblack] at heq
        cases hlst : dfsListAux (dfs g keys fuel)
            ((sortCodes (g.requires c)).filter (fun p => p ∈ keys))
            { s with gray := insert c s.gray } with
        | none => rw [hlst] at heq; cases heq
        | some s2 =>
          rw [hlst] at heq
          cases heq
          have h1 : s.gray ∪ s.black ⊆ insert c s.gray ∪ s.black := by
            apply Finset.union_subset_union_left
            exact Finset.subset_insert c s.gray
          have h2 := dfsListAux_mono (dfs g keys fuel) (fun c3 s3 s3' h3 => ih c3 s3 s3' h3)
            _ _ s2 hlst
          refine (h1.trans h2).trans ?_
          intro x hx
          simp only [Finset.mem_union, Finset.mem_erase, Finset.mem_insert]
          rcases Finset.mem_union.mp hx with hx1 | hx1
          · by_cases hxc : x = c
            · exact Or.inr (Or.inl hxc)
            · exact Or.inl ⟨hxc, hx1⟩
          · exact Or.inr (Or.inr hx1)

theorem whiteSet_anti {keys : Finset String} {s s' : TsState}
    (h : s.gray ∪ s.black ⊆ s'.gray ∪ s'.black) : whiteSet keys s' ⊆ whiteSet keys s := by
  intro x hx
  rcases Finset.mem_sdiff.mp hx with ⟨hx1, hx2⟩
  exact Finset.mem_sdiff.mpr ⟨hx1, fun hmem => hx2 (h hmem)⟩

theorem dfs_fuel_enough (g : CourseGraph) (keys : Finset String) :
    ∀ fuel : Nat,
      (∀ c s, c ∈ keys → (whiteSet keys s).card < fuel → dfs g keys fuel c s ≠ none) ∧
      (∀ cs s, (∀ c ∈ cs, c ∈ keys) → (whiteSet keys s).card < fuel →
        dfsListAux (dfs g keys fuel) cs s ≠ none) := by
  intro fuel
  induction fuel with
  | zero =>
    constructor
    · intro c s _ hcard
      omega
    · intro cs s _ hcard
      omega
  | succ fuel ih =>
    have hdfs : ∀ c s, c ∈ keys → (whiteSet keys s).card < fuel + 1 →
        dfs g keys (fuel + 1) c s ≠ none := by
      intro c s hc hcard
      rw [dfs]
      by_cases hgray : c ∈ s.gray
      · rw [if_pos hgray]; exact Option.some_ne_none _
      · rw [if_neg hgray]
        by_cases hblack : c ∈ s.black
        · rw [if_pos hblack]; exact Option.some_ne_none _
        · rw [if_neg hblack]
          have hcwhite : c ∈ whiteSet keys s :=
            Finset.mem_sdiff.mpr ⟨hc, by simp [hgray, hblack]⟩
          have hwhite1 : whiteSet keys { s with gray := insert c s.gray } =
              (whiteSet keys s).erase c := by
            ext x
            simp only [whiteSet, Finset.mem_sdiff, Finset.mem_erase, Finset.mem_union,
              Finset.mem_insert]
            tauto
          have hpos : 0 < (whiteSet keys s).card := Finset.card_pos.mpr ⟨c, hcwhite⟩
          have hcard1 : (whiteSet keys { s with gray := insert c s.gray }).card < fuel := by
            rw [hwhite1, Finset.card_erase_of_mem hcwhite]
            omega
          cases hlst : dfsListAux (dfs g keys fuel)
              ((sortCodes (g.requires c)).filter (fun p => p ∈ keys))
              { s with gray := insert c s.gray } with
          | none =>
            exact absurd hlst (ih.2 _ _ (fun p hp => (mem_nbrs.mp hp).2) hcard1)
          | some s2 =>
            simp [hlst]
    refine ⟨hdfs, ?_⟩
    intro cs
    induction cs with
    | nil =>
      intro s _ _
      rw [dfsListAux]
      exact Option.some_ne_none _
    | cons c cs ihcs =>
      intro s hk hcard
      rw [dfsListAux]
      cases hd : dfs g keys (fuel + 1) c s with
      | none => exact absurd hd (hdfs c s (hk c (by simp)) hcard)
      | some s1 =>
        have hmono := dfs_mono g keys (fuel + 1) c s s1 hd
        have hcard1 : (whiteSet keys s1).card < fuel + 1 :=
          lt_of_le_of_lt (Finset.card_le_card (whiteSet_anti hmono)) hcard
        exact ihcs s1 (fun x hx => hk x (by simp [hx])) hcard1

/-- The `dfs` invariants carry through the top loop of `topological_sort`:
if the loop returns with a clear flag and started with nothing marked
"visiting", every course of the worklist ends up visited. -/
theorem topoLoop_spec (g : CourseGraph) (keys : Finset String) (fuel : Nat) :
    ∀ cs s s', (∀ c ∈ cs, c ∈ keys) →
      topoLoop g keys fuel cs s = some s' → TsInv g keys s →
      TsInv g keys s' ∧ TsExt s s' ∧
        (s'.flag = false → s.gray = ∅ → (∀ c ∈ cs, c ∈ s'.black) ∧ s'.gray = ∅) := by
  intro cs
  induction cs with
  | nil =>
    intro s s' _ heq inv
    rw [topoLoop] at heq
    cases heq
    exact ⟨inv, TsExt.rfl' s, fun _ hg => ⟨by simp, hg⟩⟩
  | cons c cs ih =>
    intro s s' hk heq inv
    rw [topoLoop] at heq
    by_cases hcond : c ∉ s.gray ∧ c ∉ s.black
    · rw [if_pos hcond] at heq
      cases hd : dfs g keys fuel c s with
      | none => rw [hd] at heq; cases heq
      | some s1 =>
        rw [hd] at heq
        rcases dfs_spec g keys fuel c s s1 (hk c (by simp)) hd inv with ⟨inv1, ext1, fin1⟩
        rcases ih s1 s' (fun x hx => hk x (by simp [hx])) heq inv1 with ⟨inv2, ext2, fin2⟩
        refine ⟨inv2, ext1.comp ext2, fun hf hg => ?_⟩
        have hf1 : s1.flag = false := flag_false_back ext2 hf
        rcases fin1 hf1 with ⟨hcb, hg1⟩
        have hg1' : s1.gray = ∅ := by rw [hg1, hg]
        rcases fin2 hf hg1' with ⟨hcs, hg2⟩
        refine ⟨fun x hx => ?_, hg2⟩
        rcases List.mem_cons.mp hx with h | h
        · exact h ▸ ext2.black_mono hcb
        · exact hcs x h
    · rw [if_neg hcond] at heq
      rcases ih s s' (fun x hx => hk x (by simp [hx])) heq inv with ⟨inv2, ext2, fin2⟩
      refine ⟨inv2, ext2, fun hf hg => ?_⟩
      rcases fin2 hf hg with ⟨hcs, hg2⟩
      refine ⟨fun x hx => ?_, hg2⟩
      rcases List.mem_cons.mp hx with h | h
      · subst h
        have hcb : x ∈ s.black := by
          by_contra hnb
          exact hcond ⟨by simp [hg], hnb⟩
        exact ext2.black_mono hcb
      · exact hcs x h

/-- With fuel `keys.card + 1` the top loop cannot run out of DFS depth. -/
theorem topoLoop_fuel_enough (g : CourseGraph) (keys : Finset String) :
    ∀ cs s, (∀ c ∈ cs, c ∈ keys) →
      topoLoop g keys (keys.card + 1) cs s ≠ none := by
  intro cs
  induction cs with
  | nil =>
    intro s _
    rw [topoLoop]
    exact Option.some_ne_none _
  | cons c cs ih =>
    intro s hk
    rw [topoLoop]
    by_cases hcond : c ∉ s.gray ∧ c ∉ s.black
    · rw [if_pos hcond]
      have hcard : (whiteSet keys s).card < keys.card + 1 :=
        Nat.lt_succ_of_le (Finset.card_le_card Finset.sdiff_subset)
      cases hd : dfs g keys (keys.card + 1) c s with
      | none =>
        exact absurd hd
          ((dfs_fuel_enough g keys (keys.card + 1)).1 c s (hk c (by simp)) hcard)
      | some s1 => exact ih s1 (fun x hx => hk x (by simp [hx]))
    · rw [if_neg hcond]
      exact ih s (fun x hx => hk x (by simp [hx]))

/-- Along a `REQUIRES` chain the output positions strictly decrease
(when no cycle was flagged), so no listed node can reach itself. -/
theorem transGen_chain {g : CourseGraph} {keys : Finset String} {s : TsState}
    (inv : TsInv g keys s) (hf : s.flag = false) {a b : String}
    (htg : Relation.TransGen (ReqEdge g keys) a b) (ha : a ∈ s.order) :
    b ∈ s.order ∧ s.order.indexOf b < s.order.indexOf a := by
  induction htg with
  | single h => exact inv.ordered hf a ha _ h
  | tail htg h ih =>
    rcases ih with ⟨hb, hlt⟩
    rcases inv.ordered hf _ hb _ h with ⟨hc, hlt2⟩
    exact ⟨hc, lt_trans hlt2 hlt⟩

/-- On a required set whose `REQUIRES` graph has a cycle,
`topological_sort` detects it and returns `([], True)`. -/
theorem topological_sort_cycle (g : CourseGraph) (required : List String)
    (hcyc : ∃ u, Relation.TransGen (ReqEdge g required.toFinset) u u) :
    topological_sort g required = some ([], true) := by
  rcases hcyc with ⟨u, htg⟩
  have hu : u ∈ required.toFinset := by
    cases htg with
    | single h => exact h.1
    | tail _ h => exact h.2.1
  have inv0 : TsInv g required.toFinset
      { gray := ∅, black := ∅, order := [], flag := false } :=
    ⟨List.nodup_nil, fun v => by simp, fun _ v hv => absurd hv (List.not_mem_nil v)⟩
  rw [topological_sort]
  cases hloop : topoLoop g required.toFinset (required.toFinset.card + 1)
      (sortCodes required.toFinset)
      { gray := ∅, black := ∅, order := [], flag := false } with
  | none =>
    exact absurd hloop (topoLoop_fuel_enough g required.toFinset _ _
      (fun c hc => mem_sortCodes.mp hc))
  | some s =>
    rcases topoLoop_spec g required.toFinset _ _ _ s
      (fun c hc => mem_sortCodes.mp hc) hloop inv0 with ⟨inv, _ext, fin⟩
    cases hf : s.flag with
    | true => simp [hloop, hf]
    | false =>
      exfalso
      rcases fin hf rfl with ⟨hall, _⟩
      have hub : u ∈ s.black := hall u (mem_sortCodes.mpr hu)
      have huo : u ∈ s.order := (inv.order_black u).mpr hub
      rcases transGen_chain inv hf htg huo with ⟨_, hlt⟩
      exact Nat.lt_irrefl _ hlt

/-- C5: for every required set whose `REQUIRES` dependency graph has a
cycle, the three-color depth-first walk run before scheduling detects it,
the run reports CycleDetected, and no scheduling attempt is made (the
pipeline result is the error, never a list of terms). -/
theorem claim5_cycle_detected (g : CourseGraph) (required : List String)
    (course_by_code : String → Option GNode) (credits_per_semester : Nat)
    (start_year : Nat) (start_spring : Bool)
    (hcyc : ∃ u, Relation.TransGen (ReqEdge g required.toFinset) u u) :
    schedule_pipeline g required course_by_code credits_per_semester
      start_year start_spring = some (.error .cycleDetected) := by
  rw [schedule_pipeline, topological_sort_cycle g required hcyc]

/-- C5 witness: `A REQUIRES B` and `B REQUIRES A` in the required set:
the run reports CycleDetected. -/
theorem claim5_witness :
    schedule_pipeline gAB ["A", "B"] (fun _ => some ⟨3⟩) 16 2025 true =
      some (.error .cycleDetected) := by
  have hedgeAB : ReqEdge gAB (["A", "B"] : List String).toFinset "A" "B" :=
    ⟨by decide, by decide, by decide⟩
  have hedgeBA : ReqEdge gAB (["A", "B"] : List String).toFinset "B" "A" :=
    ⟨by decide, by decide, by decide⟩
  exact claim5_cycle_detected gAB ["A", "B"] (fun _ => some ⟨3⟩) 16 2025 true
    ⟨"A", Relation.TransGen.tail (Relation.TransGen.single hedgeAB) hedgeBA⟩
